import Mathlib

/-!
# Verification of the syzkaller description compiler (pkg/compiler/compiler.go)

A shallow embedding of the compiler core, faithful to the Go source:

* flag-group flattening (`recurFlattenFlags`, `flattenIntFlags`,
  compiler.go lines 415-478);
* attribute parsing (`parseAttrs` and its argument parsers, lines 206-302);
* variable-length determination (`structIsVarlen`, lines 176-204);
* architecture filtering (`filterArch`, lines 160-174);
* the `Compile` pipeline skeleton (lines 76-118).

Go maps with string keys are modelled as association lists; Go's in-place
mutation of shared objects is modelled by threading the association list
through every function.  Unbounded recursion is modelled with an explicit
fuel parameter; a distinguished fuel-exhaustion marker lets us prove that
enough fuel makes the model agree with the (fuel-free) source.
-/

set_option maxHeartbeats 1000000

namespace SyzComp

/-- One value of a flag group (`ast.FlagValue`).  `recurFlattenFlags` consults
only `GetName` on values (to decide whether a member references another flag
group); `payload` stands for the remaining content of the value
(`ast.Int.Value` / `ast.String.Value`), carried around unchanged. -/
structure FlagVal where
  name : String
  payload : Nat
deriving DecidableEq, Repr

/-- The state of `comp.intFlags` (or `comp.strFlags`): each flag group's name
together with its current `Values` slice.  Models a Go `map[string]F` whose
key set never changes during flattening, while `SetValues` updates the slice
held by a group in place. -/
abbrev FlagEnv := List (String × List FlagVal)

/-- Lookup in the flag map (`allFlags[name]`). -/
def lookupF : FlagEnv → String → Option (List FlagVal)
  | [], _ => none
  | (k, vs) :: rest, n => if k = n then some vs else lookupF rest n

/-- `flags.SetValues(values)`: replace the values stored for a group, keeping
the key set unchanged. -/
def setF : FlagEnv → String → List FlagVal → FlagEnv
  | [], _, _ => []
  | (k, vs) :: rest, n, nvs =>
    if k = n then (n, nvs) :: setF rest n nvs else (k, vs) :: setF rest n nvs

/-- The errors `recurFlattenFlags` can produce.  `cyclic n` is the
`"flags %v used twice or circular dependency on %v"` error (both verbs are
the revisited name `n`); `oversized n k` is the
`"%v has more than 100000 values %v"` error; `fuelOut` marks exhaustion of
the artificial fuel and never occurs for sufficiently large fuel. -/
inductive FlagErr where
  | cyclic (name : String)
  | oversized (name : String) (count : Nat)
  | fuelOut
deriving DecidableEq, Repr

instance {ε α : Type} [DecidableEq ε] [DecidableEq α] : DecidableEq (Except ε α) :=
  fun a b =>
    match a, b with
    | Except.ok x, Except.ok y =>
      if h : x = y then isTrue (by rw [h]) else isFalse (by simp [h])
    | Except.error x, Except.error y =>
      if h : x = y then isTrue (by rw [h]) else isFalse (by simp [h])
    | Except.ok _, Except.error _ => isFalse (by simp)
    | Except.error _, Except.ok _ => isFalse (by simp)

/-- The member loop of `recurFlattenFlags` (compiler.go lines 462-472),
abstracted over the recursive call `rec` so that the recursion below is
structural on fuel.  For each member value: if its name is a key of the flag
map, recursively flatten that group and splice in its (re-read, now
flattened) values; otherwise keep the literal.  The flag map and the
visited set are threaded through, and an error aborts the loop at once. -/
def flattenValuesF
    (rec : FlagEnv → String → List String → Except FlagErr Unit × FlagEnv × List String) :
    FlagEnv → List FlagVal → List String →
      Except FlagErr (List FlagVal) × FlagEnv × List String
  | env, [], vis => (Except.ok [], env, vis)
  | env, v :: rest, vis =>
    match lookupF env v.name with
    | none =>
      match flattenValuesF rec env rest vis with
      | (Except.ok acc, env1, vis1) => (Except.ok (v :: acc), env1, vis1)
      | (Except.error e, env1, vis1) => (Except.error e, env1, vis1)
    | some _ =>
      match rec env v.name vis with
      | (Except.error e, env1, vis1) => (Except.error e, env1, vis1)
      | (Except.ok _, env1, vis1) =>
        match flattenValuesF rec env1 rest vis1 with
        | (Except.ok acc, env2, vis2) =>
          (Except.ok ((lookupF env1 v.name).getD [] ++ acc), env2, vis2)
        | (Except.error e, env2, vis2) => (Except.error e, env2, vis2)

/-- `recurFlattenFlags` (compiler.go lines 455-478).  A name already in the
visited set is the "used twice or circular dependency" error; otherwise the
name is added to the visited set (never removed), the group's current values
are expanded by `flattenValuesF`, the 100000-value ceiling is enforced, and
only then is `SetValues` performed for this group. -/
def recurFlattenFlags : Nat → FlagEnv → String → List String →
    Except FlagErr Unit × FlagEnv × List String
  | 0, env, _, vis => (Except.error FlagErr.fuelOut, env, vis)
  | fuel + 1, env, name, vis =>
    if name ∈ vis then (Except.error (FlagErr.cyclic name), env, vis)
    else
      match flattenValuesF (recurFlattenFlags fuel) env
          ((lookupF env name).getD []) (name :: vis) with
      | (Except.error e, env1, vis1) => (Except.error e, env1, vis1)
      | (Except.ok values, env1, vis1) =>
        if 100000 < values.length then
          (Except.error (FlagErr.oversized name values.length), env1, vis1)
        else (Except.ok (), setF env1 name values, vis1)

/-- Fuel that always suffices for `recurFlattenFlags` starting from an empty
visited set (proved below): one unit per group plus one. -/
def flagFuel (env : FlagEnv) : Nat := env.length + 1

/-- `flattenIntFlags` / `flattenStrFlags` (compiler.go lines 437-453): iterate
over the groups of the flag map — in Go the iteration order of the `range`
over the map is unspecified, so it is an explicit `order` argument here — and
flatten each with a fresh visited set, counting one compiler error per failed
group. -/
def flattenIntFlagsStep (st : FlagEnv × Nat) (name : String) : FlagEnv × Nat :=
  match recurFlattenFlags (flagFuel st.1) st.1 name [] with
  | (Except.ok _, env1, _) => (env1, st.2)
  | (Except.error _, env1, _) => (env1, st.2 + 1)

def flattenIntFlags (order : List String) (env : FlagEnv) (errors : Nat) :
    FlagEnv × Nat :=
  order.foldl flattenIntFlagsStep (env, errors)

/- Sanity checks on concrete inputs (these small examples mirror the spec's
§8 examples). -/
def vA : FlagVal := ⟨"A", 0⟩

def vB : FlagVal := ⟨"B", 0⟩

def vC : FlagVal := ⟨"C", 0⟩

def vD : FlagVal := ⟨"D", 0⟩

def lit (n : Nat) : FlagVal := ⟨"", n⟩

/-! ## Basic lemmas about the flag-map model -/

/-- The key list of the flag map; fixed for the whole flattening phase. -/
def keysOf (env : FlagEnv) : List String := env.map Prod.fst

/-- Count of map keys not yet visited; the decreasing measure showing that
`flagFuel` is enough fuel. -/
def unvisited (env : FlagEnv) (vis : List String) : Nat :=
  (keysOf env).countP (fun k => decide (k ∉ vis))

/-! ## Run invariants of `recurFlattenFlags`

These capture, for one call, that: the key set of the flag map is unchanged;
the visited set only grows; values are only rewritten for newly visited
groups; on any error the group being flattened keeps its original values
(`SetValues` was not reached for it); an oversize error always reports more
than 100000 values and leaves the offending group's values unchanged. -/
def RunInv (env : FlagEnv) (n : String) (vis : List String)
    (out : Except FlagErr Unit × FlagEnv × List String) : Prop :=
  keysOf out.2.1 = keysOf env ∧
  vis <:+ out.2.2 ∧
  (∀ k, lookupF out.2.1 k ≠ lookupF env k → k ∈ out.2.2 ∧ k ∉ vis) ∧
  (∀ e, out.1 = Except.error e → lookupF out.2.1 n = lookupF env n) ∧
  (∀ m c, out.1 = Except.error (FlagErr.oversized m c) →
    100000 < c ∧ lookupF out.2.1 m = lookupF env m ∧ m ∉ vis) ∧
  (out.1 = Except.ok () → n ∉ vis ∧ n ∈ out.2.2 ∧
    ∀ vs0, lookupF env n = some vs0 →
      ∃ vals, lookupF out.2.1 n = some vals ∧ vals.length ≤ 100000)

def LoopInv (env : FlagEnv) (vis : List String)
    (out : Except FlagErr (List FlagVal) × FlagEnv × List String) : Prop :=
  keysOf out.2.1 = keysOf env ∧
  vis <:+ out.2.2 ∧
  (∀ k, lookupF out.2.1 k ≠ lookupF env k → k ∈ out.2.2 ∧ k ∉ vis) ∧
  (∀ m c, out.1 = Except.error (FlagErr.oversized m c) →
    100000 < c ∧ lookupF out.2.1 m = lookupF env m ∧ m ∉ vis)

/-! ## The pure expansion

`expandP` performs exactly the depth-first expansion of `recurFlattenFlags`
(same visited-set discipline, same member order, same 100000 ceiling) but
reads every group's values from the one fixed map given to it, instead of
the progressively rewritten one.  Because a successful stateful run only
rewrites groups after they have been visited, the two agree whenever the
stateful run succeeds; the pure version is the convenient specification to
do induction over. -/
def expandListP
    (rec : String → List String → Except FlagErr (List FlagVal × List String))
    (env : FlagEnv) :
    List FlagVal → List String → Except FlagErr (List FlagVal × List String)
  | [], vis => Except.ok ([], vis)
  | v :: rest, vis =>
    match lookupF env v.name with
    | none =>
      match expandListP rec env rest vis with
      | Except.ok (acc, vis1) => Except.ok (v :: acc, vis1)
      | Except.error e => Except.error e
    | some _ =>
      match rec v.name vis with
      | Except.error e => Except.error e
      | Except.ok (flatv, vis1) =>
        match expandListP rec env rest vis1 with
        | Except.ok (acc, vis2) => Except.ok (flatv ++ acc, vis2)
        | Except.error e => Except.error e

def expandP : Nat → FlagEnv → String → List String →
    Except FlagErr (List FlagVal × List String)
  | 0, _, _, _ => Except.error FlagErr.fuelOut
  | fuel + 1, env, name, vis =>
    if name ∈ vis then Except.error (FlagErr.cyclic name)
    else
      match expandListP (expandP fuel env) env ((lookupF env name).getD [])
          (name :: vis) with
      | Except.error e => Except.error e
      | Except.ok (values, vis1) =>
        if 100000 < values.length then
          Except.error (FlagErr.oversized name values.length)
        else Except.ok (values, vis1)

/-! ## Counting leaves

A successful expansion visits a set of fresh group names, each exactly once,
and produces one value per leaf literal of each visited group: the flattened
length is the sum of the per-group leaf counts. -/

/-- Number of leaf (non-group) members a flag group holds in the given map. -/
def ownLeafCount (env : FlagEnv) (g : String) : Nat :=
  ((lookupF env g).getD []).countP (fun v => (lookupF env v.name).isNone)

/-- Total leaf count over a collection of group names. -/
def sumLeaf (env : FlagEnv) (names : List String) : Nat :=
  (names.map (ownLeafCount env)).sum

/-- Specification of a successful pure expansion: the names visited by it are
fresh and pairwise distinct, the result length is the total leaf count of the
visited groups, and every produced value is a leaf. -/
def ExpandSpec (env : FlagEnv) (vis : List String) (flat : List FlagVal)
    (vis2 : List String) (newNames : List String) : Prop :=
  vis2 = newNames ++ vis ∧ newNames.Nodup ∧ (∀ m ∈ newNames, m ∉ vis) ∧
    flat.length = sumLeaf env newNames ∧ (∀ v ∈ flat, lookupF env v.name = none)

/-! ## Cycles in the flag-group reference graph -/

/-- One member-reference edge of the flag-group graph in a fixed map:
group `a`'s value list mentions the name of group `b`. -/
def flagEdge (env : FlagEnv) (a b : String) : Prop :=
  (lookupF env b).isSome ∧ ∃ v ∈ (lookupF env a).getD [], v.name = b

/-- Group `a` references group `b` directly or transitively. -/
def flagReaches (env : FlagEnv) (a b : String) : Prop :=
  Relation.TransGen (flagEdge env) a b

/-! ## Concrete flag-group graphs used below -/

/-- The acyclic diamond `A = {B, C}`, `B = {D}`, `C = {D}`, `D = {1}`. -/
def envDiamond : FlagEnv :=
  [("A", [⟨"B", 0⟩, ⟨"C", 0⟩]), ("B", [⟨"D", 0⟩]), ("C", [⟨"D", 0⟩]),
   ("D", [⟨"", 1⟩])]

/-- `G = {B, C, G}` is directly self-referential; `B` and `C` both reference
`D`, which holds one literal. -/
def envSelfRef : FlagEnv :=
  [("G", [⟨"B", 0⟩, ⟨"C", 0⟩, ⟨"G", 0⟩]), ("B", [⟨"D", 0⟩]), ("C", [⟨"D", 0⟩]),
   ("D", [⟨"", 1⟩])]

/-- The tree-shaped `A = {1, 2, B}`, `B = {3, 4}` from the spec's example. -/
def envTreeW : FlagEnv :=
  [("A", [⟨"", 1⟩, ⟨"", 2⟩, ⟨"B", 0⟩]), ("B", [⟨"", 3⟩, ⟨"", 4⟩])]

def rankDiamond (s : String) : Nat :=
  if s = "A" then 3 else if s = "B" then 2 else if s = "C" then 2
  else if s = "D" then 1 else 0

/-! ## Attribute parsing (`parseAttrs`, compiler.go lines 206-302)

`ast.Type` is modelled with exactly the fields `parseAttrs` and its argument
parsers consult: source position, identifier, string payload and flag, int
payload, the colon suffix (only its length and first position are used) and
the argument list. -/
inductive AstType where
  | mk (pos : Nat) (ident : String) (hasString : Bool) (strVal : String)
      (value : Nat) (colon : List Nat) (args : List AstType)

def AstType.pos : AstType → Nat
  | .mk p _ _ _ _ _ _ => p

def AstType.ident : AstType → String
  | .mk _ i _ _ _ _ _ => i

def AstType.hasString : AstType → Bool
  | .mk _ _ h _ _ _ _ => h

def AstType.strVal : AstType → String
  | .mk _ _ _ s _ _ _ => s

def AstType.value : AstType → Nat
  | .mk _ _ _ _ v _ _ => v

def AstType.colon : AstType → List Nat
  | .mk _ _ _ _ _ c _ => c

def AstType.args : AstType → List AstType
  | .mk _ _ _ _ _ _ a => a

/-- The three syntactic kinds a type node can have. -/
inductive AstKind where
  | identKind
  | intKind
  | stringKind
deriving DecidableEq, Repr

/-- Modelled from the spec: the structural type checker's `checkTypeKind`
classifies a type node as identifier, integer literal or string literal; the
checker itself lives outside the compiled core. -/
def astKind (t : AstType) : AstKind :=
  if t.hasString then AstKind.stringKind
  else if t.ident ≠ "" then AstKind.identKind
  else AstKind.intKind

/-- Modelled from the spec: an attribute is of one of four kinds — boolean
flag, integer argument, expression argument, or string argument. -/
inductive AttrType where
  | flagAttr
  | intAttr
  | exprAttr
  | stringAttr
deriving DecidableEq, Repr

/-- An attribute descriptor (`attrDesc`): its name and kind.  The result maps
of `parseAttrs` are keyed by descriptor identity, which for the repo's tables
coincides with the descriptor name. -/
structure attrDesc where
  name : String
  type : AttrType
deriving DecidableEq, Repr

/-- The compiler error messages `parseAttrs` can emit, with their dynamic
content.  Each constructor corresponds to one `comp.error` format string. -/
inductive CMsg where
  | expectAttribute (unexpected : AstKind)
  | unexpectedColon
  | unknownAttr (parentType parentName attrName : String)
  | duplicateAttr (parentType parentName attrName : String)
  | flagHasArgs (attrName : String)
  | expectedOnlyOneArg (attrName : String)
  | mustBeExpression (attrName : String)
  | expectedOneArg (attrName : String)
  | expectInt (unexpected : AstKind)
  | colonOrArgs (attrName : String)
  | mustBeString (attrName : String)
deriving DecidableEq, Repr

/-- The diagnostic sink: `comp.error` appends one positioned message and
bumps the error counter (the counter is the list length). -/
abbrev Errs := List (Nat × CMsg)

def lookupA {β : Type} : List (String × β) → String → Option β
  | [], _ => none
  | (k, v) :: rest, n => if k = n then some v else lookupA rest n

def lookupD : List attrDesc → String → Option attrDesc
  | [], _ => none
  | d :: rest, n => if d.name = n then some d else lookupD rest n

/-- The three result maps of `parseAttrs`. -/
structure AttrRes where
  int : List (String × Nat)
  expr : List (String × Option AstType)
  str : List (String × String)

/-- `parseAttrExprArg` (compiler.go lines 261-272).  `genExpression` is
modelled from the spec as wrapping the argument node itself. -/
def parseAttrExprArg (attr : AstType) (errs : Errs) : Errs × Option AstType :=
  match attr.args with
  | [arg] =>
    if arg.hasString then
      (errs ++ [(attr.pos, CMsg.mustBeExpression attr.ident)], none)
    else (errs, some arg)
  | _ => (errs ++ [(attr.pos, CMsg.expectedOnlyOneArg attr.ident)], none)

/-- `parseAttrIntArg` (compiler.go lines 274-289). -/
def parseAttrIntArg (attr : AstType) (errs : Errs) : Errs × Nat :=
  match attr.args with
  | [sz] =>
    if astKind sz ≠ AstKind.intKind then
      (errs ++ [(sz.pos, CMsg.expectInt (astKind sz))], 0)
    else if !sz.colon.isEmpty || !sz.args.isEmpty then
      (errs ++ [(sz.pos, CMsg.colonOrArgs attr.ident)], 0)
    else (errs, sz.value)
  | _ => (errs ++ [(attr.pos, CMsg.expectedOneArg attr.ident)], 0)

/-- `parseAttrStringArg` (compiler.go lines 291-302). -/
def parseAttrStringArg (attr : AstType) (errs : Errs) : Errs × String :=
  match attr.args with
  | [arg] =>
    if !arg.hasString then
      (errs ++ [(attr.pos, CMsg.mustBeString attr.ident)], "")
    else (errs, arg.strVal)
  | _ => (errs ++ [(attr.pos, CMsg.expectedOneArg attr.ident)], "")

/-- The attribute loop of `parseAttrs` (compiler.go lines 212-258), with the
accumulated maps explicit.  The `none` result models the `nil, nil, nil`
returns; the early `some acc` returns carry the partially filled maps.  The
repo's descriptor tables only contain the four kinds above, so Go's
defensive `default` branch has no counterpart here. -/
def parseAttrsGo (descs : List attrDesc) (parentType parentName : String) :
    List AstType → Errs → AttrRes → Errs × Option AttrRes
  | [], errs, acc => (errs, some acc)
  | attr :: rest, errs, acc =>
    if astKind attr ≠ AstKind.identKind then
      (errs ++ [(attr.pos, CMsg.expectAttribute (astKind attr))], some acc)
    else
      match attr.colon with
      | cp :: _ => (errs ++ [(cp, CMsg.unexpectedColon)], some acc)
      | [] =>
        match lookupD descs attr.ident with
        | none =>
          (errs ++ [(attr.pos, CMsg.unknownAttr parentType parentName attr.ident)],
            some acc)
        | some d =>
          if (lookupA acc.int d.name).isSome ∨ (lookupA acc.expr d.name).isSome ∨
              (lookupA acc.str d.name).isSome then
            (errs ++
              [(attr.pos, CMsg.duplicateAttr parentType parentName attr.ident)],
              some acc)
          else
            match d.type with
            | AttrType.flagAttr =>
              -- Go stores resInt[desc] = 1 and then checks the argument
              -- list; since the check failure discards all three maps
              -- (nil, nil, nil), performing the store only on the success
              -- path is observationally identical.
              if !attr.args.isEmpty then
                (errs ++ [(attr.pos, CMsg.flagHasArgs attr.ident)], none)
              else
                parseAttrsGo descs parentType parentName rest errs
                  { acc with int := acc.int ++ [(d.name, 1)] }
            | AttrType.intAttr =>
              match parseAttrIntArg attr errs with
              | (errs2, v) =>
                parseAttrsGo descs parentType parentName rest errs2
                  { acc with int := acc.int ++ [(d.name, v)] }
            | AttrType.exprAttr =>
              match parseAttrExprArg attr errs with
              | (errs2, v) =>
                parseAttrsGo descs parentType parentName rest errs2
                  { acc with expr := acc.expr ++ [(d.name, v)] }
            | AttrType.stringAttr =>
              match parseAttrStringArg attr errs with
              | (errs2, v) =>
                parseAttrsGo descs parentType parentName rest errs2
                  { acc with str := acc.str ++ [(d.name, v)] }

/-- `parseAttrs`: run the loop from empty maps.  Note the parent node
contributes only its type and name strings to messages — its source position
is discarded (`_, parentType, parentName := parent.Info()`), so no error can
be located at the parent's position. -/
def parseAttrs (descs : List attrDesc) (parentType parentName : String)
    (attrs : List AstType) (errs : Errs) : Errs × Option AttrRes :=
  parseAttrsGo descs parentType parentName attrs errs ⟨[], [], []⟩

/-- All source positions an attribute list can contribute to diagnostics:
each attribute's own position, its colon positions, and its arguments'
positions. -/
def attrPositions (attrs : List AstType) : List Nat :=
  attrs.flatMap (fun a => a.pos :: (a.colon ++ a.args.map AstType.pos))

/-- Attribute descriptor table for the C7 counterexample: an integer
attribute and a boolean flag attribute. -/
def descsC7 : List attrDesc := [⟨"align", AttrType.intAttr⟩, ⟨"packed", AttrType.flagAttr⟩]

/-- An integer literal type node. -/
def intLitT (pos n : Nat) : AstType := AstType.mk pos "" false "" n [] []

/-- Attribute list `align(1, 2)` (wrong arity) followed by `packed`. -/
def attrsC7 : List AstType :=
  [AstType.mk 10 "align" false "" 0 [] [intLitT 11 1, intLitT 12 2],
   AstType.mk 20 "packed" false "" 0 [] []]

/-! ## Variable-length determination (`structIsVarlen`, compiler.go 176-204)

Type expressions are modelled with the three shapes the varlen analysis
distinguishes (modelled from the spec): fixed-size integers, pointers — a
pointer is itself fixed-size, so `isVarlen` does not recurse through it
("pointer breaks the size-recursion") — and by-value references to a named
struct or union, into which `isVarlen` recurses via `structIsVarlen`. -/
inductive TypeExpr where
  | int (size : Nat)
  | ptr (elem : TypeExpr)
  | structRef (name : String)
deriving DecidableEq, Repr

/-- A struct/union field: name, type and attribute list (`ast.Field`). -/
structure Field where
  fname : String
  type : TypeExpr
  attrs : List AstType

/-- A struct or union definition (`ast.Struct`): the union discriminant,
the node-level attributes and the ordered field list. -/
structure StructDef where
  isUnion : Bool
  attrs : List AstType
  fields : List Field

/-- `comp.structs`: name-keyed struct table. -/
abbrev Structs := List (String × StructDef)

/-- `comp.structVarlen`: the memo table.  A Go map write is modelled by
consing the new binding in front (lookup takes the first match). -/
abbrev VMemo := List (String × Bool)

/-- Modelled from the spec: `structFieldAttrs` maps the conditional-inclusion
attribute name "if" to `attrIf`; the check
`structFieldAttrs[attr.Ident] == attrIf` therefore tests the identifier. -/
def hasIfAttr (fld : Field) : Bool :=
  fld.attrs.any (fun a => a.ident == "if")

/-- Modelled from the spec: `unionAttrs` contains the boolean varlen
attribute, the only entry `structIsVarlen` consults. -/
def unionAttrs : List attrDesc := [⟨"varlen", AttrType.flagAttr⟩]

/-- `parseIntAttrs` (compiler.go lines 206-210): the integer map of
`parseAttrs`.  The diagnostics it may emit flow to the error sink and do not
influence the varlen analysis, so they are dropped here; a `nil, nil, nil`
return reads as an empty map (Go reads from a nil map yield zero values). -/
def parseIntAttrs (descs : List attrDesc) (parentType parentName : String)
    (attrs : List AstType) : List (String × Nat) :=
  match (parseAttrs descs parentType parentName attrs []).2 with
  | some res => res.int
  | none => []

/-- `res[attrVarlen] != 0` for a union's attributes. -/
def unionVarlenAttr (s : StructDef) (name : String) : Bool :=
  (lookupA (parseIntAttrs unionAttrs "union" name s.attrs) "varlen").getD 0 != 0

/-- The field loop of `structIsVarlen` (compiler.go lines 190-201),
abstracted over the recursive call.  A field with a conditional-inclusion
attribute, or one whose own type is varlen, makes the struct varlen and
breaks the loop.  Note the short-circuit: when the field has the `if`
attribute its type is not analysed (Go's `hasIfAttr || comp.isVarlen(...)`). -/
def fieldsVarlenF (rec : VMemo → String → Option (Bool × VMemo)) :
    VMemo → List Field → Option (Bool × VMemo)
  | memo, [] => some (false, memo)
  | memo, fld :: rest =>
    if hasIfAttr fld then some (true, memo)
    else
      match fld.type with
      | TypeExpr.int _ => fieldsVarlenF rec memo rest
      | TypeExpr.ptr _ => fieldsVarlenF rec memo rest
      | TypeExpr.structRef m =>
        match rec memo m with
        | none => none
        | some (true, memo1) => some (true, memo1)
        | some (false, memo1) => fieldsVarlenF rec memo1 rest

/-- `structIsVarlen` (compiler.go lines 176-204).  A memoized name returns
its cached value; a union with the varlen attribute is varlen; otherwise the
memo is pre-seeded with a provisional `false` for the name ("to not hang on
recursive types") before the fields are scanned, and the computed result
overwrites the provisional entry.  A name absent from the struct table makes
Go dereference a nil pointer; that is modelled as `none`, as is fuel
exhaustion (excluded by the fuel bound proved below). -/
def structIsVarlen : Nat → Structs → VMemo → String → Option (Bool × VMemo)
  | 0, _, _, _ => none
  | fuel + 1, structs, memo, name =>
    match lookupA memo name with
    | some varlen => some (varlen, memo)
    | none =>
      match lookupA structs name with
      | none => none
      | some s =>
        if s.isUnion && unionVarlenAttr s name then
          some (true, (name, true) :: memo)
        else
          match fieldsVarlenF (structIsVarlen fuel structs)
              ((name, false) :: memo) s.fields with
          | none => none
          | some (varlen, memo2) => some (varlen, (name, varlen) :: memo2)

/-- `comp.isVarlen` on a type expression, modelled from the spec: integers
and pointers are fixed-size; a by-value struct reference recurses. -/
def isVarlen (fuel : Nat) (structs : Structs) (memo : VMemo) :
    TypeExpr → Option (Bool × VMemo)
  | TypeExpr.int _ => some (false, memo)
  | TypeExpr.ptr _ => some (false, memo)
  | TypeExpr.structRef n => structIsVarlen fuel structs memo n

/-! ## Generic association-list lemmas and the memo measure -/
def keysL {β : Type} (l : List (String × β)) : List String := l.map Prod.fst

/-- Count of struct-table names that are not yet memoized: the decreasing
measure that bounds the recursion depth of `structIsVarlen`. -/
def unmemoS (structs : Structs) (memo : VMemo) : Nat :=
  (structs.map Prod.fst).countP (fun k => decide (k ∉ memo.map Prod.fst))

/-- Closedness of the struct table: every by-value struct reference inside a
table struct resolves within the table (guaranteed by the earlier typecheck
stage; without it Go would dereference a nil struct pointer). -/
def ClosedStructs (structs : Structs) : Prop :=
  ∀ n s, lookupA structs n = some s → ∀ fld ∈ s.fields, ∀ m,
    fld.type = TypeExpr.structRef m → (lookupA structs m).isSome

/-- A struct that embeds itself by value: the worst case for termination. -/
def sSelf : StructDef := ⟨false, [], [⟨"f", TypeExpr.structRef "S", []⟩]⟩

def structsSelf : Structs := [("S", sSelf)]

/-! ## The specification of variable-length determination

`VarlenTrue` is the claim's recursive reading of varlen-ness, as its least
fixpoint: a union with the explicit varlen attribute is varlen, and a struct
is varlen when some field carries the conditional-inclusion attribute or
embeds (by value) a varlen struct. -/
inductive VarlenTrue (structs : Structs) : String → Prop where
  | unionAttr (name : String) (s : StructDef)
      (hs : lookupA structs name = some s) (hu : s.isUnion = true)
      (ha : unionVarlenAttr s name = true) : VarlenTrue structs name
  | fieldIf (name : String) (s : StructDef) (fld : Field)
      (hs : lookupA structs name = some s) (hf : fld ∈ s.fields)
      (hif : hasIfAttr fld = true) : VarlenTrue structs name
  | fieldRec (name : String) (s : StructDef) (fld : Field) (m : String)
      (hs : lookupA structs name = some s) (hf : fld ∈ s.fields)
      (ht : fld.type = TypeExpr.structRef m) (hm : VarlenTrue structs m) :
      VarlenTrue structs name

/-- Memo entries below a rank bound agree with the specification. -/
def MemoGood (structs : Structs) (rank : String → Nat) (memo : VMemo) (b : Nat) :
    Prop :=
  ∀ k v, lookupA memo k = some v → rank k < b → (v = true ↔ VarlenTrue structs k)

/-- Every lookup in the new memo is either an old entry or correct. -/
def NewOK (structs : Structs) (memo memo' : VMemo) : Prop :=
  ∀ k v, lookupA memo' k = some v →
    lookupA memo k = some v ∨ (v = true ↔ VarlenTrue structs k)

/-- The by-value reference graph strictly decreases a rank: no struct embeds
itself by value, directly or transitively.  This is the separately enforced
recursive-size validity; without it the memoized provisional `false` can go
stale (see the counterexample below). -/
def Ranked (structs : Structs) (rank : String → Nat) : Prop :=
  ∀ n s fld m, lookupA structs n = some s → fld ∈ s.fields →
    fld.type = TypeExpr.structRef m → rank m < rank n

/-- A field attribute node spelling the conditional-inclusion attribute. -/
def ifAttrNode : AstType := AstType.mk 0 "if" false "" 0 [] []

/-- A by-value cyclic table: `Y` embeds `X` and `Z`, `X` embeds `Y` back, and
`Z` has a conditionally included field.  Analysing `Y` finalizes `X` as
`false` while `Y` is still provisional. -/
def tblStale : Structs :=
  [("Y", ⟨false, [],
     [⟨"x", TypeExpr.structRef "X", []⟩, ⟨"z", TypeExpr.structRef "Z", []⟩]⟩),
   ("X", ⟨false, [], [⟨"y", TypeExpr.structRef "Y", []⟩]⟩),
   ("Z", ⟨false, [], [⟨"c", TypeExpr.int 4, [ifAttrNode]⟩]⟩)]

/-- The memo table after analysing `Y` in `tblStale`. -/
def staleMemo : VMemo :=
  [("Y", true), ("Z", true), ("Z", false), ("X", false), ("X", false),
   ("Y", false)]

/-- Two structs over fixed-size integers; `Q` additionally has one field
with the conditional-inclusion attribute. -/
def tblW : Structs :=
  [("P", ⟨false, [], [⟨"a", TypeExpr.int 4, []⟩]⟩),
   ("Q", ⟨false, [],
     [⟨"a", TypeExpr.int 4, []⟩, ⟨"b", TypeExpr.int 4, [ifAttrNode]⟩]⟩)]

/-! ### filterArch (compiler.go lines 160-174)

`comp.desc = comp.desc.Filter(pred)` keeps exactly the top-level nodes for
which the predicate returns true; the predicate returns true when the node's
file supports the target architecture and otherwise, for resource, struct,
call and type-definition nodes only, records `typ ++ " " ++ name` in the
unsupported set before returning false.  `ast.Description.Filter` and
`Meta.SupportsArch` live outside this repository slice. -/

/-- The kind of a top-level AST node, as dispatched by the type switch in
`filterArch` (`*ast.Resource, *ast.Struct, *ast.Call, *ast.TypeDef`). -/
inductive NodeKind where
  | resource
  | structDecl
  | call
  | typeDef
  | intFlagsDecl
  | strFlagsDecl
  | otherDecl
deriving DecidableEq

/-- A top-level AST node as `filterArch` sees it: its dynamic kind and the
`typ`/`name` strings returned by `n.Info()`. -/
structure AstNode where
  kind : NodeKind
  typ : String
  name : String
deriving DecidableEq

/-- Whether the node's dynamic type matches the type switch in `filterArch`
(`*ast.Resource, *ast.Struct, *ast.Call, *ast.TypeDef`). -/
def isArchDecl : NodeKind → Bool
  | NodeKind.resource => true
  | NodeKind.structDecl => true
  | NodeKind.call => true
  | NodeKind.typeDef => true
  | _ => false

/-- The filter predicate passed to `Filter`, with its side effect on the
unsupported set made explicit: keep a supported node; otherwise record
`typ ++ " " ++ name` for the four declaration kinds and drop the node. -/
def archPred (supports : AstNode → Bool) (n : AstNode) (unsup : List String) :
    Bool × List String :=
  if supports n then (true, unsup)
  else if isArchDecl n.kind then (false, unsup ++ [n.typ ++ " " ++ n.name])
  else (false, unsup)

/-- Modelled from the spec: `ast.Description.Filter` applies the predicate to
each top-level node in order and keeps those for which it returns true. -/
def filterNodes (supports : AstNode → Bool) :
    List AstNode → List String → List AstNode × List String
  | [], unsup => ([], unsup)
  | n :: rest, unsup =>
    match archPred supports n unsup with
    | (true, u) =>
      let r := filterNodes supports rest u
      (n :: r.1, r.2)
    | (false, u) => filterNodes supports rest u

/-- The fragment of the compiler state `filterArch` touches: the description's
top-level nodes, the unsupported set and the error counter. -/
structure ArchSt where
  nodes : List AstNode
  unsupported : List String
  errors : Nat
deriving DecidableEq

/-- `filterArch`: replaces the description by its filtered form; the body
contains no `comp.error` call, so the error counter is copied unchanged. -/
def filterArch (supports : AstNode → Bool) (st : ArchSt) : ArchSt :=
  let r := filterNodes supports st.nodes st.unsupported
  { nodes := r.1, unsupported := r.2, errors := st.errors }

/-- Modelled from the spec: the syscall descriptor list is generated from the
call declarations present in the (filtered) tree. -/
def genSyscalls (nodes : List AstNode) : List String :=
  (nodes.filter (fun n => n.kind == NodeKind.call)).map AstNode.name

/-- A three-node description: two call declarations and a flag declaration;
the target architecture does not support the second call. -/
def archSt0 : ArchSt :=
  { nodes :=
      [⟨NodeKind.call, "syscall", "read"⟩,
       ⟨NodeKind.call, "syscall", "write"⟩,
       ⟨NodeKind.intFlagsDecl, "int flags", "open_flags"⟩],
    unsupported := [],
    errors := 5 }

/-- The architecture-support predicate for the witness: everything but the
`write` declaration is supported. -/
def supports0 : AstNode → Bool := fun n => !(n.name == "write")

/-! ### Compile (compiler.go lines 76-118)

The pipeline is a fixed statement sequence over the mutable compiler state:
filterArch; typecheck; flattenFlags; `if comp.errors != 0 { return nil }`;
on the nil-consts path extractConsts and another errors check; otherwise
optionally assignSyscallNumbers, then patchConsts, then check, then
`if comp.errors != 0 { return nil }`; then genSyscalls, layoutTypes,
generateTypes, genResources and a final errors check before returning the
Prog.  The stage bodies other than filterArch and the flag flattening are
outside this file's scope, so `Compile` is stated over an arbitrary state
type with one transformer per stage and an error counter, which is exactly
what the control flow reads. -/

/-- The compiler stages `Compile` invokes, as state transformers over the
mutable compiler state, plus the error counter and the
`target.SyscallNumbers` flag. -/
structure CompilerOps (σ : Type) where
  errors : σ → Nat
  filterArch : σ → σ
  typecheck : σ → σ
  flattenFlags : σ → σ
  extractConsts : σ → σ
  assignSyscallNumbers : σ → σ
  patchConsts : σ → σ
  check : σ → σ
  genSyscalls : σ → σ
  layoutTypes : σ → σ
  generateTypes : σ → σ
  genResources : σ → σ
  syscallNumbers : Bool

/-- `Compile`: the statement sequence of compiler.go lines 76-118, with
`hasConsts` standing for `consts != nil`.  Returns the final state when a
Prog is returned (`none` for Go's `nil`) together with the list of stages
executed on that control path, in order. -/
def Compile {σ : Type} (ops : CompilerOps σ) (hasConsts : Bool) (s0 : σ) :
    Option σ × List String :=
  let s3 := ops.flattenFlags (ops.typecheck (ops.filterArch s0))
  let tr0 := ["filterArch", "typecheck", "flattenFlags"]
  if ops.errors s3 ≠ 0 then (none, tr0)
  else if hasConsts = false then
    let s4 := ops.extractConsts s3
    if ops.errors s4 ≠ 0 then (none, tr0 ++ ["extractConsts"])
    else (some s4, tr0 ++ ["extractConsts"])
  else
    let s4 := if ops.syscallNumbers then ops.assignSyscallNumbers s3 else s3
    let tr1 := tr0 ++ if ops.syscallNumbers then ["assignSyscallNumbers"] else []
    let s6 := ops.check (ops.patchConsts s4)
    let tr2 := tr1 ++ ["patchConsts", "check"]
    if ops.errors s6 ≠ 0 then (none, tr2)
    else
      let s9 := ops.genResources (ops.generateTypes (ops.layoutTypes
        (ops.genSyscalls s6)))
      let tr3 := tr2 ++ ["genSyscalls", "layoutTypes", "generateTypes",
        "genResources"]
      if ops.errors s9 ≠ 0 then (none, tr3) else (some s9, tr3)

/-- Stage functions for the counterexamples and witness: the state is the
bare error counter, every stage is the identity except the one under test. -/
def opsTc : CompilerOps Nat :=
  { errors := fun n => n, filterArch := fun n => n,
    typecheck := fun n => n + 1, flattenFlags := fun n => n,
    extractConsts := fun n => n, assignSyscallNumbers := fun n => n,
    patchConsts := fun n => n, check := fun n => n,
    genSyscalls := fun n => n, layoutTypes := fun n => n,
    generateTypes := fun n => n, genResources := fun n => n,
    syscallNumbers := false }

/-- Like `opsTc` but the error is raised by patchConsts instead. -/
def opsPc : CompilerOps Nat :=
  { errors := fun n => n, filterArch := fun n => n,
    typecheck := fun n => n, flattenFlags := fun n => n,
    extractConsts := fun n => n, assignSyscallNumbers := fun n => n,
    patchConsts := fun n => n + 1, check := fun n => n,
    genSyscalls := fun n => n, layoutTypes := fun n => n,
    generateTypes := fun n => n, genResources := fun n => n,
    syscallNumbers := false }

/-- Like `opsTc` but the error is raised by check. -/
def opsCk : CompilerOps Nat :=
  { errors := fun n => n, filterArch := fun n => n,
    typecheck := fun n => n, flattenFlags := fun n => n,
    extractConsts := fun n => n, assignSyscallNumbers := fun n => n,
    patchConsts := fun n => n, check := fun n => n + 1,
    genSyscalls := fun n => n, layoutTypes := fun n => n,
    generateTypes := fun n => n, genResources := fun n => n,
    syscallNumbers := false }

/-- `A = {1, 2, B}`, `B = {3, 4}` flattens `A` to `{1, 2, 3, 4}`. -/
example :
    (recurFlattenFlags 3 [("A", [lit 1, lit 2, vB]), ("B", [lit 3, lit 4])] "A" []).1 =
      Except.ok () := by decide

example :
    lookupF (recurFlattenFlags 3 [("A", [lit 1, lit 2, vB]), ("B", [lit 3, lit 4])] "A" []).2.1
        "A" = some [lit 1, lit 2, lit 3, lit 4] := by decide

/-- `C = {1, D}`, `D = {C}` fails with a cyclic-dependency error. -/
example :
    (recurFlattenFlags 3 [("C", [lit 1, vD]), ("D", [vC])] "C" []).1 =
      Except.error (FlagErr.cyclic "C") := by decide

/-- The acyclic diamond `A = {B, C}`, `B = {D}`, `C = {D}`, `D = {1}` is
rejected when flattening `A`. -/
example :
    (recurFlattenFlags 5
        [("A", [vB, vC]), ("B", [vD]), ("C", [vD]), ("D", [lit 1])] "A" []).1 =
      Except.error (FlagErr.cyclic "D") := by decide

theorem lookupF_setF (env : FlagEnv) (n : String) (vs : List FlagVal) (k : String) :
    lookupF (setF env n vs) k =
      if k = n then (lookupF env n).map (fun _ => vs) else lookupF env k := by
  induction env with
  | nil => by_cases h : k = n <;> simp [setF, lookupF, h]
  | cons p rest ih =>
    obtain ⟨pk, pvs⟩ := p
    by_cases hpk : pk = n
    · subst hpk
      by_cases hk : pk = k
      · subst hk
        simp [setF, lookupF]
      · have hk2 : ¬ (k = pk) := fun h => hk h.symm
        simp [setF, lookupF, hk, hk2, ih]
    · by_cases hk : pk = k
      · subst hk
        have hk2 : ¬ (pk = n) := hpk
        simp [setF, lookupF, hk2, ih]
      · simp [setF, lookupF, hpk, hk, ih]

theorem keysOf_setF (env : FlagEnv) (n : String) (vs : List FlagVal) :
    keysOf (setF env n vs) = keysOf env := by
  induction env with
  | nil => rfl
  | cons p rest ih =>
    obtain ⟨pk, pvs⟩ := p
    by_cases hpk : pk = n <;> simp [setF, keysOf, hpk] <;>
      simpa [keysOf] using ih

theorem lookupF_isSome_iff_mem (env : FlagEnv) (k : String) :
    (lookupF env k).isSome ↔ k ∈ keysOf env := by
  induction env with
  | nil => simp [lookupF, keysOf]
  | cons p rest ih =>
    obtain ⟨pk, pvs⟩ := p
    by_cases h : pk = k
    · subst h; simp [lookupF, keysOf]
    · simp [lookupF, keysOf, h, ih]
      intro heq
      exact absurd heq.symm h

theorem lookupF_none_iff_not_mem (env : FlagEnv) (k : String) :
    lookupF env k = none ↔ k ∉ keysOf env := by
  rw [← lookupF_isSome_iff_mem]
  cases lookupF env k <;> simp

/-- `setF` leaves a map without the key untouched. -/
theorem setF_not_mem (env : FlagEnv) (n : String) (vs : List FlagVal)
    (h : lookupF env n = none) : setF env n vs = env := by
  induction env with
  | nil => rfl
  | cons p rest ih =>
    obtain ⟨pk, pvs⟩ := p
    by_cases hq : pk = n
    · subst hq; simp [lookupF] at h
    · simp only [lookupF, if_neg hq] at h
      simp [setF, hq, ih h]

/-- Writing back the values a key already holds is a no-op when keys are
unique (as they are for a Go map). -/
theorem setF_lookup_self (env : FlagEnv) (n : String) (vs : List FlagVal)
    (hnd : (keysOf env).Nodup) (h : lookupF env n = some vs) :
    setF env n vs = env := by
  induction env with
  | nil => rfl
  | cons p rest ih =>
    obtain ⟨pk, pvs⟩ := p
    simp only [keysOf, List.map_cons, List.nodup_cons] at hnd
    by_cases hpk : pk = n
    · subst hpk
      simp only [lookupF, if_pos rfl] at h
      have hvs : pvs = vs := by
        exact Option.some.inj h
      subst hvs
      have hrest : setF rest pk pvs = rest := by
        apply setF_not_mem
        rw [lookupF_none_iff_not_mem]
        exact hnd.1
      simp [setF, hrest]
    · simp only [lookupF, if_neg hpk] at h
      simp [setF, hpk, ih hnd.2 h]

theorem unvisited_le_length (env : FlagEnv) (vis : List String) :
    unvisited env vis ≤ env.length := by
  have h := List.countP_le_length (l := keysOf env) (p := fun k => decide (k ∉ vis))
  simpa [unvisited, keysOf] using h

theorem unvisited_anti (env : FlagEnv) (vis vis2 : List String)
    (h : ∀ k, k ∈ vis → k ∈ vis2) : unvisited env vis2 ≤ unvisited env vis := by
  unfold unvisited
  apply List.countP_mono_left
  intro k _ hk
  simp only [decide_eq_true_eq] at hk ⊢
  intro hmem
  exact hk (h k hmem)

theorem countP_unvis_cons_le (l : List String) (vis : List String) (n : String) :
    l.countP (fun k => decide (k ∉ (n :: vis))) ≤
      l.countP (fun k => decide (k ∉ vis)) := by
  apply List.countP_mono_left
  intro j _ hj
  simp only [decide_eq_true_eq] at hj ⊢
  intro hmem2
  exact hj (List.mem_cons_of_mem _ hmem2)

theorem countP_unvis_cons_lt (l : List String) (vis : List String) (n : String)
    (hmem : n ∈ l) (hnvis : n ∉ vis) :
    l.countP (fun k => decide (k ∉ (n :: vis))) <
      l.countP (fun k => decide (k ∉ vis)) := by
  induction l with
  | nil => simp at hmem
  | cons k ks ih =>
    by_cases hk : k = n
    · subst hk
      have hle := countP_unvis_cons_le ks vis k
      have e1 : List.countP (fun j => decide (j ∉ (k :: vis))) (k :: ks) =
          List.countP (fun j => decide (j ∉ (k :: vis))) ks := by
        rw [List.countP_cons]; simp
      have e2 : List.countP (fun j => decide (j ∉ vis)) (k :: ks) =
          List.countP (fun j => decide (j ∉ vis)) ks + 1 := by
        rw [List.countP_cons]; simp [hnvis]
      omega
    · have hmem2 : n ∈ ks := by
        rcases List.mem_cons.mp hmem with h | h
        · exact absurd h.symm hk
        · exact h
      have hlt := ih hmem2
      by_cases hkvis : k ∈ vis
      · have e1 : List.countP (fun j => decide (j ∉ (n :: vis))) (k :: ks) =
            List.countP (fun j => decide (j ∉ (n :: vis))) ks := by
          rw [List.countP_cons]; simp [hkvis]
        have e2 : List.countP (fun j => decide (j ∉ vis)) (k :: ks) =
            List.countP (fun j => decide (j ∉ vis)) ks := by
          rw [List.countP_cons]; simp [hkvis]
        omega
      · have e1 : List.countP (fun j => decide (j ∉ (n :: vis))) (k :: ks) =
            List.countP (fun j => decide (j ∉ (n :: vis))) ks + 1 := by
          rw [List.countP_cons]; simp [List.mem_cons, hk, hkvis]
        have e2 : List.countP (fun j => decide (j ∉ vis)) (k :: ks) =
            List.countP (fun j => decide (j ∉ vis)) ks + 1 := by
          rw [List.countP_cons]; simp [hkvis]
        omega

theorem unvisited_cons_lt (env : FlagEnv) (vis : List String) (n : String)
    (hmem : n ∈ keysOf env) (hnvis : n ∉ vis) :
    unvisited env (n :: vis) < unvisited env vis := by
  unfold unvisited
  exact countP_unvis_cons_lt (keysOf env) vis n hmem hnvis

theorem flattenValuesF_inv
    (rec : FlagEnv → String → List String → Except FlagErr Unit × FlagEnv × List String)
    (hrec : ∀ env n vis, RunInv env n vis (rec env n vis)) (vals : List FlagVal) :
    ∀ env vis, LoopInv env vis (flattenValuesF rec env vals vis) := by
  induction vals with
  | nil =>
    intro env vis
    refine ⟨rfl, List.suffix_refl _, ?_, ?_⟩
    · intro k hk; exact absurd rfl hk
    · intro m c h; simp [flattenValuesF] at h
  | cons v rest ih =>
    intro env vis
    cases hl : lookupF env v.name with
    | none =>
      rcases hrest : flattenValuesF rec env rest vis with ⟨res2, env2, vis2⟩
      have ihr := ih env vis
      rw [hrest] at ihr
      obtain ⟨ik, iv, im, io⟩ := ihr
      cases res2 with
      | ok acc =>
        have heq : flattenValuesF rec env (v :: rest) vis =
            (Except.ok (v :: acc), env2, vis2) := by
          simp [flattenValuesF, hl, hrest]
        rw [heq]
        exact ⟨ik, iv, im, by intro m c h; simp at h⟩
      | error e =>
        have heq : flattenValuesF rec env (v :: rest) vis =
            (Except.error e, env2, vis2) := by
          simp [flattenValuesF, hl, hrest]
        rw [heq]
        exact ⟨ik, iv, im, by intro m c h; simp at h; exact io m c (by rw [h])⟩
    | some vs =>
      rcases hr : rec env v.name vis with ⟨res1, env1, vis1⟩
      have hri := hrec env v.name vis
      rw [hr] at hri
      obtain ⟨rk, rv, rm, _, ro, _⟩ := hri
      cases res1 with
      | error e =>
        have heq : flattenValuesF rec env (v :: rest) vis =
            (Except.error e, env1, vis1) := by
          simp [flattenValuesF, hl, hr]
        rw [heq]
        refine ⟨rk, rv, rm, ?_⟩
        intro m c h
        simp at h
        exact ro m c (by rw [h])
      | ok u =>
        rcases hrest : flattenValuesF rec env1 rest vis1 with ⟨res2, env2, vis2⟩
        have ihr := ih env1 vis1
        rw [hrest] at ihr
        obtain ⟨ik, iv, im, io⟩ := ihr
        have hkeys : keysOf env2 = keysOf env := ik.trans rk
        have hsuffix : vis <:+ vis2 := rv.trans iv
        have hmut : ∀ k, lookupF env2 k ≠ lookupF env k → k ∈ vis2 ∧ k ∉ vis := by
          intro k hk
          by_cases h1 : lookupF env1 k = lookupF env k
          · have h2 : lookupF env2 k ≠ lookupF env1 k := by rw [h1]; exact hk
            obtain ⟨ha, hb⟩ := im k h2
            exact ⟨ha, fun hkv => hb (rv.subset hkv)⟩
          · obtain ⟨ha, hb⟩ := rm k h1
            exact ⟨iv.subset ha, hb⟩
        cases res2 with
        | ok acc =>
          have heq : flattenValuesF rec env (v :: rest) vis =
              (Except.ok ((lookupF env1 v.name).getD [] ++ acc), env2, vis2) := by
            simp [flattenValuesF, hl, hr, hrest]
          rw [heq]
          exact ⟨hkeys, hsuffix, hmut, by intro m c h; simp at h⟩
        | error e =>
          have heq : flattenValuesF rec env (v :: rest) vis =
              (Except.error e, env2, vis2) := by
            simp [flattenValuesF, hl, hr, hrest]
          rw [heq]
          refine ⟨hkeys, hsuffix, hmut, ?_⟩
          intro m c h
          simp at h
          obtain ⟨hc, hunch, hnv1⟩ := io m c (by rw [h])
          have hunch0 : lookupF env1 m = lookupF env m := by
            by_contra hne
            exact hnv1 ((rm m hne).1)
          exact ⟨hc, hunch.trans hunch0, fun hv => hnv1 (rv.subset hv)⟩

theorem recurFlattenFlags_inv :
    ∀ fuel env n vis, RunInv env n vis (recurFlattenFlags fuel env n vis) := by
  intro fuel
  induction fuel with
  | zero =>
    intro env n vis
    refine ⟨rfl, List.suffix_refl _, ?_, ?_, ?_, ?_⟩
    · intro k hk; exact absurd rfl hk
    · intro e _; rfl
    · intro m c h; simp [recurFlattenFlags] at h
    · intro h; simp [recurFlattenFlags] at h
  | succ fuel ih =>
    intro env n vis
    by_cases hvis : n ∈ vis
    · have heq : recurFlattenFlags (fuel + 1) env n vis =
          (Except.error (FlagErr.cyclic n), env, vis) := by
        simp [recurFlattenFlags, hvis]
      rw [heq]
      refine ⟨rfl, List.suffix_refl _, ?_, ?_, ?_, ?_⟩
      · intro k hk; exact absurd rfl hk
      · intro e _; rfl
      · intro m c h; simp at h
      · intro h; simp at h
    · rcases hloop : flattenValuesF (recurFlattenFlags fuel) env
          ((lookupF env n).getD []) (n :: vis) with ⟨res1, env1, vis1⟩
      have hli := flattenValuesF_inv _ ih ((lookupF env n).getD []) env (n :: vis)
      rw [hloop] at hli
      obtain ⟨lk, lv, lm, lo⟩ := hli
      have hsub : vis <:+ vis1 := (List.suffix_cons n vis).trans lv
      have hmut : ∀ k, lookupF env1 k ≠ lookupF env k → k ∈ vis1 ∧ k ∉ vis := by
        intro k hk
        obtain ⟨ha, hb⟩ := lm k hk
        exact ⟨ha, fun hv => hb (List.mem_cons_of_mem _ hv)⟩
      have hself : lookupF env1 n = lookupF env n := by
        by_contra hne
        exact (lm n hne).2 (List.mem_cons_self _ _)
      cases res1 with
      | error e =>
        have heq : recurFlattenFlags (fuel + 1) env n vis =
            (Except.error e, env1, vis1) := by
          simp [recurFlattenFlags, hvis, hloop]
        rw [heq]
        refine ⟨lk, hsub, hmut, ?_, ?_, ?_⟩
        · intro e2 _; exact hself
        · intro m c h
          simp at h
          obtain ⟨hc, hunch, hnv⟩ := lo m c (by rw [h])
          exact ⟨hc, hunch, fun hv => hnv (List.mem_cons_of_mem _ hv)⟩
        · intro h; simp at h
      | ok values =>
        by_cases hsz : 100000 < values.length
        · have heq : recurFlattenFlags (fuel + 1) env n vis =
              (Except.error (FlagErr.oversized n values.length), env1, vis1) := by
            simp [recurFlattenFlags, hvis, hloop, hsz]
          rw [heq]
          refine ⟨lk, hsub, hmut, ?_, ?_, ?_⟩
          · intro e2 _; exact hself
          · intro m c h
            simp at h
            obtain ⟨hm, hc⟩ := h
            subst hm; subst hc
            exact ⟨hsz, hself, hvis⟩
          · intro h; simp at h
        · have heq : recurFlattenFlags (fuel + 1) env n vis =
              (Except.ok (), setF env1 n values, vis1) := by
            simp [recurFlattenFlags, hvis, hloop, hsz]
          rw [heq]
          have hnin1 : n ∈ vis1 := lv.subset (List.mem_cons_self _ _)
          refine ⟨?_, hsub, ?_, ?_, ?_, ?_⟩
          · rw [keysOf_setF]; exact lk
          · intro k hk
            rw [lookupF_setF] at hk
            by_cases hkn : k = n
            · subst hkn; exact ⟨hnin1, hvis⟩
            · rw [if_neg hkn] at hk
              exact hmut k hk
          · intro e h; simp at h
          · intro m c h; simp at h
          · intro _
            refine ⟨hvis, hnin1, ?_⟩
            intro vs0 hvs0
            have hsome1 : (lookupF env1 n).isSome := by
              rw [lookupF_isSome_iff_mem, lk, ← lookupF_isSome_iff_mem, hvs0]
              rfl
            refine ⟨values, ?_, by omega⟩
            rw [lookupF_setF, if_pos rfl]
            rcases hx : lookupF env1 n with _ | vs1
            · rw [hx] at hsome1; simp at hsome1
            · rfl

/-! ## Sufficient fuel

With more fuel than there are unvisited groups, the fuel marker can never
surface: the model then behaves exactly like the fuel-free Go function. -/
theorem unvisited_keys_congr (env1 env2 : FlagEnv) (vis : List String)
    (h : keysOf env1 = keysOf env2) : unvisited env1 vis = unvisited env2 vis := by
  unfold unvisited
  rw [h]

theorem flattenValuesF_fuel
    (rec : FlagEnv → String → List String → Except FlagErr Unit × FlagEnv × List String)
    (hrecInv : ∀ env n vis, RunInv env n vis (rec env n vis))
    (bound : Nat)
    (hrec : ∀ env n vis, unvisited env vis < bound →
      (rec env n vis).1 ≠ Except.error FlagErr.fuelOut)
    (vals : List FlagVal) :
    ∀ env vis, unvisited env vis < bound →
      (flattenValuesF rec env vals vis).1 ≠ Except.error FlagErr.fuelOut := by
  induction vals with
  | nil => intro env vis _ h; simp [flattenValuesF] at h
  | cons v rest ih =>
    intro env vis hb
    cases hl : lookupF env v.name with
    | none =>
      rcases hrest : flattenValuesF rec env rest vis with ⟨res2, env2, vis2⟩
      have hne := ih env vis hb
      rw [hrest] at hne
      cases res2 with
      | ok acc =>
        have heq : flattenValuesF rec env (v :: rest) vis =
            (Except.ok (v :: acc), env2, vis2) := by
          simp [flattenValuesF, hl, hrest]
        rw [heq]; simp
      | error e =>
        have heq : flattenValuesF rec env (v :: rest) vis =
            (Except.error e, env2, vis2) := by
          simp [flattenValuesF, hl, hrest]
        rw [heq]; exact hne
    | some vs =>
      rcases hr : rec env v.name vis with ⟨res1, env1, vis1⟩
      have hne1 := hrec env v.name vis hb
      rw [hr] at hne1
      cases res1 with
      | error e =>
        have heq : flattenValuesF rec env (v :: rest) vis =
            (Except.error e, env1, vis1) := by
          simp [flattenValuesF, hl, hr]
        rw [heq]
        simpa using hne1
      | ok u =>
        have hriv := hrecInv env v.name vis
        rw [hr] at hriv
        have hb2 : unvisited env1 vis1 < bound := by
          rw [unvisited_keys_congr env1 env vis1 hriv.1]
          exact lt_of_le_of_lt
            (unvisited_anti env vis vis1 (fun k hk => hriv.2.1.subset hk)) hb
        rcases hrest : flattenValuesF rec env1 rest vis1 with ⟨res2, env2, vis2⟩
        have hne2 := ih env1 vis1 hb2
        rw [hrest] at hne2
        cases res2 with
        | ok acc =>
          have heq : flattenValuesF rec env (v :: rest) vis =
              (Except.ok ((lookupF env1 v.name).getD [] ++ acc), env2, vis2) := by
            simp [flattenValuesF, hl, hr, hrest]
          rw [heq]; simp
        | error e =>
          have heq : flattenValuesF rec env (v :: rest) vis =
              (Except.error e, env2, vis2) := by
            simp [flattenValuesF, hl, hr, hrest]
          rw [heq]; exact hne2

theorem recurFlattenFlags_fuel :
    ∀ fuel env n vis, unvisited env vis < fuel →
      (recurFlattenFlags fuel env n vis).1 ≠ Except.error FlagErr.fuelOut := by
  intro fuel
  induction fuel with
  | zero => intro env n vis hb; omega
  | succ fuel ih =>
    intro env n vis hb
    by_cases hvis : n ∈ vis
    · simp [recurFlattenFlags, hvis]
    · rcases hloop : flattenValuesF (recurFlattenFlags fuel) env
          ((lookupF env n).getD []) (n :: vis) with ⟨res1, env1, vis1⟩
      have hres1 : res1 ≠ Except.error FlagErr.fuelOut := by
        by_cases hmem : n ∈ keysOf env
        · have hb2 : unvisited env (n :: vis) < fuel := by
            have := unvisited_cons_lt env vis n hmem hvis
            omega
          have := flattenValuesF_fuel (recurFlattenFlags fuel)
            (recurFlattenFlags_inv fuel) fuel ih
            ((lookupF env n).getD []) env (n :: vis) hb2
          rw [hloop] at this
          exact this
        · have hnone : lookupF env n = none := by
            rw [lookupF_none_iff_not_mem]; exact hmem
          rw [hnone] at hloop
          simp [flattenValuesF] at hloop
          rw [← hloop.1]
          simp
      cases res1 with
      | error e =>
        have heq : recurFlattenFlags (fuel + 1) env n vis =
            (Except.error e, env1, vis1) := by
          simp [recurFlattenFlags, hvis, hloop]
        rw [heq]
        simpa using hres1
      | ok values =>
        by_cases hsz : 100000 < values.length
        · have heq : recurFlattenFlags (fuel + 1) env n vis =
              (Except.error (FlagErr.oversized n values.length), env1, vis1) := by
            simp [recurFlattenFlags, hvis, hloop, hsz]
          rw [heq]
          simp
        · have heq : recurFlattenFlags (fuel + 1) env n vis =
              (Except.ok (), setF env1 n values, vis1) := by
            simp [recurFlattenFlags, hvis, hloop, hsz]
          rw [heq]
          simp

/-- `flagFuel` is always enough fuel for a top-level call (empty visited
set), so the fuel marker models nothing the Go code can do. -/
theorem flagFuel_sufficient (env : FlagEnv) (n : String) :
    (recurFlattenFlags (flagFuel env) env n []).1 ≠ Except.error FlagErr.fuelOut := by
  apply recurFlattenFlags_fuel
  have h1 := unvisited_le_length env []
  have h2 : env.length < flagFuel env := by unfold flagFuel; omega
  omega

theorem expandListP_suffix
    (rec : String → List String → Except FlagErr (List FlagVal × List String))
    (env : FlagEnv)
    (hrec : ∀ m vis f vis2, rec m vis = Except.ok (f, vis2) → vis <:+ vis2)
    (vals : List FlagVal) :
    ∀ vis acc vis2, expandListP rec env vals vis = Except.ok (acc, vis2) →
      vis <:+ vis2 := by
  induction vals with
  | nil =>
    intro vis acc vis2 h
    simp only [expandListP] at h
    obtain ⟨_, h2⟩ := Prod.mk.injEq .. ▸ (Except.ok.inj h)
    rw [← h2]
  | cons v rest ih =>
    intro vis acc vis2 h
    cases hl : lookupF env v.name with
    | none =>
      rcases hrest : expandListP rec env rest vis with e | ⟨acc1, vis1⟩
      · have heq : expandListP rec env (v :: rest) vis = Except.error e := by
          simp [expandListP, hl, hrest]
        rw [heq] at h; simp at h
      · have heq : expandListP rec env (v :: rest) vis =
            Except.ok (v :: acc1, vis1) := by
          simp [expandListP, hl, hrest]
        rw [heq] at h
        simp at h
        rw [← h.2]
        exact ih vis acc1 vis1 hrest
    | some vs =>
      rcases hr : rec v.name vis with e | ⟨flatv, vis1⟩
      · have heq : expandListP rec env (v :: rest) vis = Except.error e := by
          simp [expandListP, hl, hr]
        rw [heq] at h; simp at h
      · rcases hrest : expandListP rec env rest vis1 with e | ⟨acc1, vis2b⟩
        · have heq : expandListP rec env (v :: rest) vis = Except.error e := by
            simp [expandListP, hl, hr, hrest]
          rw [heq] at h; simp at h
        · have heq : expandListP rec env (v :: rest) vis =
              Except.ok (flatv ++ acc1, vis2b) := by
            simp [expandListP, hl, hr, hrest]
          rw [heq] at h
          simp at h
          rw [← h.2]
          exact (hrec v.name vis flatv vis1 hr).trans (ih vis1 acc1 vis2b hrest)

theorem expandP_suffix :
    ∀ fuel env n vis flat vis2, expandP fuel env n vis = Except.ok (flat, vis2) →
      vis <:+ vis2 ∧ n ∉ vis ∧ n ∈ vis2 := by
  intro fuel
  induction fuel with
  | zero => intro env n vis flat vis2 h; simp [expandP] at h
  | succ fuel ih =>
    intro env n vis flat vis2 h
    by_cases hvis : n ∈ vis
    · have heq : expandP (fuel + 1) env n vis =
          Except.error (FlagErr.cyclic n) := by
        simp [expandP, hvis]
      rw [heq] at h; simp at h
    · rcases hloop : expandListP (expandP fuel env) env ((lookupF env n).getD [])
          (n :: vis) with e | ⟨values, vis1⟩
      · have heq : expandP (fuel + 1) env n vis = Except.error e := by
          simp [expandP, hvis, hloop]
        rw [heq] at h; simp at h
      · by_cases hsz : 100000 < values.length
        · have heq : expandP (fuel + 1) env n vis =
              Except.error (FlagErr.oversized n values.length) := by
            simp [expandP, hvis, hloop, hsz]
          rw [heq] at h; simp at h
        · have heq : expandP (fuel + 1) env n vis = Except.ok (values, vis1) := by
            simp [expandP, hvis, hloop, hsz]
          rw [heq] at h
          simp at h
          have hsfx : (n :: vis) <:+ vis1 :=
            expandListP_suffix (expandP fuel env) env
              (fun m vis f vis2 hm => ((ih env m vis f vis2 hm).1))
              ((lookupF env n).getD []) (n :: vis) values vis1 hloop
          rw [← h.2]
          exact ⟨(List.suffix_cons n vis).trans hsfx, hvis,
            hsfx.subset (List.mem_cons_self _ _)⟩

theorem lookupF_none_congr (env1 env2 : FlagEnv) (h : keysOf env1 = keysOf env2)
    (k : String) : lookupF env1 k = none ↔ lookupF env2 k = none := by
  rw [lookupF_none_iff_not_mem, lookupF_none_iff_not_mem, h]

/-- The pure expansion reads group values only at not-yet-visited names, so
two maps with the same keys that agree outside the visited set expand
identically. -/
theorem expandListP_congr
    (rec1 rec2 : String → List String → Except FlagErr (List FlagVal × List String))
    (env1 env2 : FlagEnv) (hkeys : keysOf env1 = keysOf env2)
    (hrec : ∀ m vis, (∀ k, k ∉ vis → lookupF env1 k = lookupF env2 k) →
      rec1 m vis = rec2 m vis)
    (hrecS : ∀ m vis f vis2, rec1 m vis = Except.ok (f, vis2) → vis <:+ vis2)
    (vals : List FlagVal) :
    ∀ vis, (∀ k, k ∉ vis → lookupF env1 k = lookupF env2 k) →
      expandListP rec1 env1 vals vis = expandListP rec2 env2 vals vis := by
  induction vals with
  | nil => intro vis _; rfl
  | cons v rest ih =>
    intro vis hag
    cases hl1 : lookupF env1 v.name with
    | none =>
      have hl2 : lookupF env2 v.name = none :=
        (lookupF_none_congr env1 env2 hkeys v.name).1 hl1
      have hrest := ih vis hag
      have h1 : expandListP rec1 env1 (v :: rest) vis =
          (match expandListP rec1 env1 rest vis with
           | Except.ok (acc, vis1) => Except.ok (v :: acc, vis1)
           | Except.error e => Except.error e) := by
        simp [expandListP, hl1]
      have h2 : expandListP rec2 env2 (v :: rest) vis =
          (match expandListP rec2 env2 rest vis with
           | Except.ok (acc, vis1) => Except.ok (v :: acc, vis1)
           | Except.error e => Except.error e) := by
        simp [expandListP, hl2]
      rw [h1, h2, hrest]
    | some vs =>
      have hl2 : ∃ vs2, lookupF env2 v.name = some vs2 := by
        rcases hx : lookupF env2 v.name with _ | vs2
        · rw [(lookupF_none_congr env1 env2 hkeys v.name).2 hx] at hl1
          exact absurd hl1 (by simp)
        · exact ⟨vs2, rfl⟩
      obtain ⟨vs2, hl2⟩ := hl2
      have hreq := hrec v.name vis hag
      rcases hr : rec1 v.name vis with e | ⟨flatv, vis1⟩
      · have h1 : expandListP rec1 env1 (v :: rest) vis = Except.error e := by
          simp [expandListP, hl1, hr]
        have h2 : expandListP rec2 env2 (v :: rest) vis = Except.error e := by
          simp [expandListP, hl2, ← hreq, hr]
        rw [h1, h2]
      · have hsfx : vis <:+ vis1 := hrecS v.name vis flatv vis1 hr
        have hag1 : ∀ k, k ∉ vis1 → lookupF env1 k = lookupF env2 k := by
          intro k hk
          exact hag k (fun hkv => hk (hsfx.subset hkv))
        have hrest := ih vis1 hag1
        have h1 : expandListP rec1 env1 (v :: rest) vis =
            (match expandListP rec1 env1 rest vis1 with
             | Except.ok (acc, vis2) => Except.ok (flatv ++ acc, vis2)
             | Except.error e => Except.error e) := by
          simp [expandListP, hl1, hr]
        have h2 : expandListP rec2 env2 (v :: rest) vis =
            (match expandListP rec2 env2 rest vis1 with
             | Except.ok (acc, vis2) => Except.ok (flatv ++ acc, vis2)
             | Except.error e => Except.error e) := by
          simp [expandListP, hl2, ← hreq, hr]
        rw [h1, h2, hrest]

theorem expandP_congr :
    ∀ fuel env1 env2 n vis, keysOf env1 = keysOf env2 →
      (∀ k, k ∉ vis → lookupF env1 k = lookupF env2 k) →
      expandP fuel env1 n vis = expandP fuel env2 n vis := by
  intro fuel
  induction fuel with
  | zero => intro env1 env2 n vis _ _; rfl
  | succ fuel ih =>
    intro env1 env2 n vis hkeys hag
    by_cases hvis : n ∈ vis
    · simp [expandP, hvis]
    · have hown : lookupF env1 n = lookupF env2 n := hag n hvis
      have hloopeq : expandListP (expandP fuel env1) env1
          ((lookupF env1 n).getD []) (n :: vis) =
          expandListP (expandP fuel env2) env2
          ((lookupF env2 n).getD []) (n :: vis) := by
        rw [← hown]
        apply expandListP_congr _ _ env1 env2 hkeys
        · intro m vis2 hag2
          exact ih env1 env2 m vis2 hkeys hag2
        · intro m vis2 f vis3 hm
          exact (expandP_suffix fuel env1 m vis2 f vis3 hm).1
        · intro k hk
          apply hag
          intro hkv
          exact hk (List.mem_cons_of_mem _ hkv)
      rw [expandP, expandP, if_neg hvis, if_neg hvis, hloopeq]

theorem sumLeaf_append (env : FlagEnv) (l1 l2 : List String) :
    sumLeaf env (l1 ++ l2) = sumLeaf env l1 + sumLeaf env l2 := by
  simp [sumLeaf]

theorem expandListP_length
    (rec : String → List String → Except FlagErr (List FlagVal × List String))
    (env : FlagEnv)
    (hrec : ∀ m vis f vis2, rec m vis = Except.ok (f, vis2) →
      ∃ nn, ExpandSpec env vis f vis2 nn)
    (vals : List FlagVal) :
    ∀ vis acc vis2, expandListP rec env vals vis = Except.ok (acc, vis2) →
      ∃ nn, vis2 = nn ++ vis ∧ nn.Nodup ∧ (∀ m ∈ nn, m ∉ vis) ∧
        acc.length =
          vals.countP (fun v => (lookupF env v.name).isNone) + sumLeaf env nn ∧
        (∀ v ∈ acc, lookupF env v.name = none) := by
  induction vals with
  | nil =>
    intro vis acc vis2 h
    simp only [expandListP] at h
    simp at h
    obtain ⟨hacc, hv⟩ := h
    subst hacc
    refine ⟨[], by simp [hv], List.nodup_nil, by simp, by simp [sumLeaf], by simp⟩
  | cons v rest ih =>
    intro vis acc vis2 h
    cases hl : lookupF env v.name with
    | none =>
      rcases hrest : expandListP rec env rest vis with e | ⟨acc1, vis1⟩
      · have heq : expandListP rec env (v :: rest) vis = Except.error e := by
          simp [expandListP, hl, hrest]
        rw [heq] at h; simp at h
      · have heq : expandListP rec env (v :: rest) vis =
            Except.ok (v :: acc1, vis1) := by
          simp [expandListP, hl, hrest]
        rw [heq] at h
        simp at h
        obtain ⟨hacc, hvis2⟩ := h
        obtain ⟨nn, h1, h2, h3, h4, h5⟩ := ih vis acc1 vis1 hrest
        refine ⟨nn, by rw [← hvis2]; exact h1, h2, h3, ?_, ?_⟩
        · rw [← hacc]
          have : List.countP (fun v => (lookupF env v.name).isNone) (v :: rest) =
              List.countP (fun v => (lookupF env v.name).isNone) rest + 1 := by
            rw [List.countP_cons]; simp [hl]
          simp only [List.length_cons, this]
          omega
        · intro x hx
          rw [← hacc] at hx
          rcases List.mem_cons.mp hx with hx | hx
          · rw [hx]; exact hl
          · exact h5 x hx
    | some vs =>
      rcases hr : rec v.name vis with e | ⟨flatv, vis1⟩
      · have heq : expandListP rec env (v :: rest) vis = Except.error e := by
          simp [expandListP, hl, hr]
        rw [heq] at h; simp at h
      · rcases hrest : expandListP rec env rest vis1 with e | ⟨acc1, vis2b⟩
        · have heq : expandListP rec env (v :: rest) vis = Except.error e := by
            simp [expandListP, hl, hr, hrest]
          rw [heq] at h; simp at h
        · have heq : expandListP rec env (v :: rest) vis =
              Except.ok (flatv ++ acc1, vis2b) := by
            simp [expandListP, hl, hr, hrest]
          rw [heq] at h
          simp at h
          obtain ⟨hacc, hvis2⟩ := h
          obtain ⟨nn1, e1, e2, e3, e4, e5⟩ := hrec v.name vis flatv vis1 hr
          obtain ⟨nn2, f1, f2, f3, f4, f5⟩ := ih vis1 acc1 vis2b hrest
          refine ⟨nn2 ++ nn1, ?_, ?_, ?_, ?_, ?_⟩
          · rw [← hvis2, f1, e1, List.append_assoc]
          · rw [List.nodup_append]
            refine ⟨f2, e2, ?_⟩
            intro x hx2 hx1
            have := f3 x hx2
            rw [e1] at this
            exact this (List.mem_append.mpr (Or.inl hx1))
          · intro m hm
            rcases List.mem_append.mp hm with hm | hm
            · intro hmv
              have := f3 m hm
              rw [e1] at this
              exact this (List.mem_append.mpr (Or.inr hmv))
            · exact e3 m hm
          · rw [← hacc]
            have hcnt : List.countP (fun v => (lookupF env v.name).isNone)
                (v :: rest) =
                List.countP (fun v => (lookupF env v.name).isNone) rest := by
              rw [List.countP_cons]; simp [hl]
            rw [List.length_append, hcnt, sumLeaf_append, e4, f4]
            omega
          · intro x hx
            rw [← hacc] at hx
            rcases List.mem_append.mp hx with hx | hx
            · exact e5 x hx
            · exact f5 x hx

theorem expandP_length :
    ∀ fuel env n vis flat vis2, expandP fuel env n vis = Except.ok (flat, vis2) →
      ∃ nn, ExpandSpec env vis flat vis2 nn ∧ n ∈ nn := by
  intro fuel
  induction fuel with
  | zero => intro env n vis flat vis2 h; simp [expandP] at h
  | succ fuel ih =>
    intro env n vis flat vis2 h
    by_cases hvis : n ∈ vis
    · have heq : expandP (fuel + 1) env n vis =
          Except.error (FlagErr.cyclic n) := by
        simp [expandP, hvis]
      rw [heq] at h; simp at h
    · rcases hloop : expandListP (expandP fuel env) env ((lookupF env n).getD [])
          (n :: vis) with e | ⟨values, vis1⟩
      · have heq : expandP (fuel + 1) env n vis = Except.error e := by
          simp [expandP, hvis, hloop]
        rw [heq] at h; simp at h
      · by_cases hsz : 100000 < values.length
        · have heq : expandP (fuel + 1) env n vis =
              Except.error (FlagErr.oversized n values.length) := by
            simp [expandP, hvis, hloop, hsz]
          rw [heq] at h; simp at h
        · have heq : expandP (fuel + 1) env n vis = Except.ok (values, vis1) := by
            simp [expandP, hvis, hloop, hsz]
          rw [heq] at h
          simp at h
          obtain ⟨hflat, hvis2⟩ := h
          obtain ⟨nn, h1, h2, h3, h4, h5⟩ :=
            expandListP_length (expandP fuel env) env
              (fun m vism f vism2 hm => by
                obtain ⟨nnm, hs, _⟩ := ih env m vism f vism2 hm
                exact ⟨nnm, hs⟩)
              ((lookupF env n).getD []) (n :: vis) values vis1 hloop
          refine ⟨nn ++ [n], ⟨?_, ?_, ?_, ?_, ?_⟩, by simp⟩
          · rw [← hvis2, h1, List.append_assoc]
            simp
          · rw [List.nodup_append]
            refine ⟨h2, List.nodup_singleton n, ?_⟩
            intro x hx hxn
            simp at hxn
            subst hxn
            exact (h3 x hx) (List.mem_cons_self _ _)
          · intro m hm
            rcases List.mem_append.mp hm with hm | hm
            · intro hmv
              exact (h3 m hm) (List.mem_cons_of_mem _ hmv)
            · simp at hm; subst hm; exact hvis
          · rw [← hflat, h4, sumLeaf_append]
            simp [sumLeaf, ownLeafCount]
            omega
          · intro x hx; rw [← hflat] at hx; exact h5 x hx

theorem transGen_head_cases {α : Type} {r : α → α → Prop} {a b : α}
    (h : Relation.TransGen r a b) : r a b ∨ ∃ c, r a c ∧ Relation.TransGen r c b := by
  induction h using Relation.TransGen.head_induction_on with
  | base h => exact Or.inl h
  | ih h1 h2 _ => exact Or.inr ⟨_, h1, h2⟩

/-- A monotone rank on the edges excludes cycles. -/
theorem no_cycle_of_rank {α : Type} {r : α → α → Prop} (rank : α → Nat)
    (hr : ∀ a b, r a b → rank b < rank a) (m : α) : ¬ Relation.TransGen r m m := by
  intro h
  have hlt : ∀ a b, Relation.TransGen r a b → rank b < rank a := by
    intro a b hab
    induction hab with
    | single h1 => exact hr _ _ h1
    | tail _ h2 ih => exact lt_trans (hr _ _ h2) ih
  exact lt_irrefl _ (hlt m m h)

/-- Every group member of a list successfully expanded by the loop was itself
successfully expanded, from a visited set extending the loop's initial one. -/
theorem expandListP_member_ok
    (rec : String → List String → Except FlagErr (List FlagVal × List String))
    (env : FlagEnv)
    (hrecS : ∀ m vis f vis2, rec m vis = Except.ok (f, vis2) → vis <:+ vis2)
    (vals : List FlagVal) :
    ∀ vis acc vis2, expandListP rec env vals vis = Except.ok (acc, vis2) →
      ∀ v ∈ vals, (lookupF env v.name).isSome →
        ∃ visv flatv visv2, vis <:+ visv ∧
          rec v.name visv = Except.ok (flatv, visv2) := by
  induction vals with
  | nil => intro vis acc vis2 _ v hv; simp at hv
  | cons v rest ih =>
    intro vis acc vis2 h w hw hwsome
    cases hl : lookupF env v.name with
    | none =>
      rcases hrest : expandListP rec env rest vis with e | ⟨acc1, vis1⟩
      · have heq : expandListP rec env (v :: rest) vis = Except.error e := by
          simp [expandListP, hl, hrest]
        rw [heq] at h; simp at h
      · rcases List.mem_cons.mp hw with hwv | hwr
        · subst hwv
          rw [hl] at hwsome
          simp at hwsome
        · exact ih vis acc1 vis1 hrest w hwr hwsome
    | some vs =>
      rcases hr : rec v.name vis with e | ⟨flatv, vis1⟩
      · have heq : expandListP rec env (v :: rest) vis = Except.error e := by
          simp [expandListP, hl, hr]
        rw [heq] at h; simp at h
      · rcases hrest : expandListP rec env rest vis1 with e | ⟨acc1, vis2b⟩
        · have heq : expandListP rec env (v :: rest) vis = Except.error e := by
            simp [expandListP, hl, hr, hrest]
          rw [heq] at h; simp at h
        · rcases List.mem_cons.mp hw with hwv | hwr
          · subst hwv
            exact ⟨vis, flatv, vis1, List.suffix_refl _, hr⟩
          · obtain ⟨visv, fv, vv2, hsfx, hok⟩ := ih vis1 acc1 vis2b hrest w hwr hwsome
            exact ⟨visv, fv, vv2, (hrecS v.name vis flatv vis1 hr).trans hsfx, hok⟩

/-- A successful pure expansion of `n` implies nothing reachable from `n` is
already visited, and `n` lies on no cycle. -/
theorem expandP_no_reach_visited :
    ∀ fuel env n vis flat vis2, expandP fuel env n vis = Except.ok (flat, vis2) →
      ∀ m, flagReaches env n m → m ∉ n :: vis := by
  intro fuel
  induction fuel with
  | zero => intro env n vis flat vis2 h; simp [expandP] at h
  | succ fuel ih =>
    intro env n vis flat vis2 h m hreach
    have hvis : n ∉ vis := by
      by_contra hvis
      have heq : expandP (fuel + 1) env n vis =
          Except.error (FlagErr.cyclic n) := by
        simp [expandP, hvis]
      rw [heq] at h; simp at h
    rcases hloop : expandListP (expandP fuel env) env ((lookupF env n).getD [])
        (n :: vis) with e | ⟨values, vis1⟩
    · have heq : expandP (fuel + 1) env n vis = Except.error e := by
        simp [expandP, hvis, hloop]
      rw [heq] at h; simp at h
    · have hmem := expandListP_member_ok (expandP fuel env) env
        (fun mm viss f viss2 hm => (expandP_suffix fuel env mm viss f viss2 hm).1)
        ((lookupF env n).getD []) (n :: vis) values vis1 hloop
      rcases transGen_head_cases hreach with hedge | ⟨c, hedge, htail⟩
      · obtain ⟨hbsome, v, hv, hvn⟩ := hedge
        obtain ⟨visv, fv, vv2, hsfx, hok⟩ := hmem v hv (by rw [hvn]; exact hbsome)
        have := (expandP_suffix fuel env v.name visv fv vv2 hok).2.1
        rw [hvn] at this
        intro hmv
        exact this (hsfx.subset hmv)
      · obtain ⟨hbsome, v, hv, hvn⟩ := hedge
        obtain ⟨visv, fv, vv2, hsfx, hok⟩ := hmem v hv (by rw [hvn]; exact hbsome)
        rw [hvn] at hok
        have hnot := ih env c visv fv vv2 hok m htail
        intro hmv
        exact hnot (List.mem_cons_of_mem _ (hsfx.subset hmv))

/-! ## A successful stateful run agrees with the pure expansion -/
theorem flattenValuesF_to_pure (fuel : Nat)
    (hs2p : ∀ env n vis env2 vis2,
      recurFlattenFlags fuel env n vis = (Except.ok (), env2, vis2) →
      ∃ flat, expandP fuel env n vis = Except.ok (flat, vis2) ∧
        ((lookupF env n).isSome → lookupF env2 n = some flat))
    (vals : List FlagVal) :
    ∀ env vis acc env2 vis2,
      flattenValuesF (recurFlattenFlags fuel) env vals vis =
        (Except.ok acc, env2, vis2) →
      expandListP (expandP fuel env) env vals vis = Except.ok (acc, vis2) := by
  induction vals with
  | nil =>
    intro env vis acc env2 vis2 h
    simp only [flattenValuesF, Prod.mk.injEq] at h
    obtain ⟨h1, _, h3⟩ := h
    have hacc : acc = [] := (Except.ok.inj h1).symm
    subst hacc; subst h3
    simp [expandListP]
  | cons v rest ih =>
    intro env vis acc env2 vis2 h
    cases hl : lookupF env v.name with
    | none =>
      rcases hrest : flattenValuesF (recurFlattenFlags fuel) env rest vis with
        ⟨res2, env2b, vis2b⟩
      cases res2 with
      | error e =>
        have heq : flattenValuesF (recurFlattenFlags fuel) env (v :: rest) vis =
            (Except.error e, env2b, vis2b) := by
          simp [flattenValuesF, hl, hrest]
        rw [heq] at h; simp at h
      | ok acc1 =>
        have heq : flattenValuesF (recurFlattenFlags fuel) env (v :: rest) vis =
            (Except.ok (v :: acc1), env2b, vis2b) := by
          simp [flattenValuesF, hl, hrest]
        rw [heq] at h
        simp only [Prod.mk.injEq] at h
        obtain ⟨h1, _, h3⟩ := h
        have hacc : acc = v :: acc1 := (Except.ok.inj h1).symm
        subst hacc; subst h3
        have hrec := ih env vis acc1 env2b vis2b hrest
        simp [expandListP, hl, hrec]
    | some vs =>
      rcases hr : recurFlattenFlags fuel env v.name vis with ⟨res1, env1, vis1⟩
      cases res1 with
      | error e =>
        have heq : flattenValuesF (recurFlattenFlags fuel) env (v :: rest) vis =
            (Except.error e, env1, vis1) := by
          simp [flattenValuesF, hl, hr]
        rw [heq] at h; simp at h
      | ok u =>
        obtain ⟨⟩ := u
        rcases hrest : flattenValuesF (recurFlattenFlags fuel) env1 rest vis1 with
          ⟨res2, env2b, vis2b⟩
        cases res2 with
        | error e =>
          have heq : flattenValuesF (recurFlattenFlags fuel) env (v :: rest) vis =
              (Except.error e, env2b, vis2b) := by
            simp [flattenValuesF, hl, hr, hrest]
          rw [heq] at h; simp at h
        | ok acc1 =>
          have heq : flattenValuesF (recurFlattenFlags fuel) env (v :: rest) vis =
              (Except.ok ((lookupF env1 v.name).getD [] ++ acc1), env2b, vis2b) := by
            simp [flattenValuesF, hl, hr, hrest]
          rw [heq] at h
          simp only [Prod.mk.injEq] at h
          obtain ⟨h1, _, h3⟩ := h
          have hacc : acc = (lookupF env1 v.name).getD [] ++ acc1 :=
            (Except.ok.inj h1).symm
          subst hacc; subst h3
          obtain ⟨flatv, hpure, hcommit⟩ := hs2p env v.name vis env1 vis1 hr
          have hcom : lookupF env1 v.name = some flatv :=
            hcommit (by rw [hl]; rfl)
          have hinv := recurFlattenFlags_inv fuel env v.name vis
          rw [hr] at hinv
          obtain ⟨hik, hiv, him, _⟩ := hinv
          have hpure2 := ih env1 vis1 acc1 env2b vis2b hrest
          have htransport :
              expandListP (expandP fuel env) env rest vis1 =
                expandListP (expandP fuel env1) env1 rest vis1 := by
            apply Eq.symm
            apply expandListP_congr (expandP fuel env1) (expandP fuel env)
              env1 env hik
            · intro m vism hagm
              exact expandP_congr fuel env1 env m vism hik hagm
            · intro m vism f vism2 hm
              exact (expandP_suffix fuel env1 m vism f vism2 hm).1
            · intro k hk
              by_contra hne
              exact hk ((him k hne).1)
          rw [← htransport] at hpure2
          have heqp : expandListP (expandP fuel env) env (v :: rest) vis =
              Except.ok (flatv ++ acc1, vis2b) := by
            simp [expandListP, hl, hpure, hpure2]
          rw [heqp, hcom]
          simp

theorem recurFlattenFlags_to_pure :
    ∀ fuel env n vis env2 vis2,
      recurFlattenFlags fuel env n vis = (Except.ok (), env2, vis2) →
      ∃ flat, expandP fuel env n vis = Except.ok (flat, vis2) ∧
        ((lookupF env n).isSome → lookupF env2 n = some flat) := by
  intro fuel
  induction fuel with
  | zero => intro env n vis env2 vis2 h; simp [recurFlattenFlags] at h
  | succ fuel ih =>
    intro env n vis env2 vis2 h
    have hvis : n ∉ vis := by
      by_contra hvis
      have heq : recurFlattenFlags (fuel + 1) env n vis =
          (Except.error (FlagErr.cyclic n), env, vis) := by
        simp [recurFlattenFlags, hvis]
      rw [heq] at h; simp at h
    rcases hloop : flattenValuesF (recurFlattenFlags fuel) env
        ((lookupF env n).getD []) (n :: vis) with ⟨res1, env1, vis1⟩
    cases res1 with
    | error e =>
      have heq : recurFlattenFlags (fuel + 1) env n vis =
          (Except.error e, env1, vis1) := by
        simp [recurFlattenFlags, hvis, hloop]
      rw [heq] at h; simp at h
    | ok values =>
      by_cases hsz : 100000 < values.length
      · have heq : recurFlattenFlags (fuel + 1) env n vis =
            (Except.error (FlagErr.oversized n values.length), env1, vis1) := by
          simp [recurFlattenFlags, hvis, hloop, hsz]
        rw [heq] at h; simp at h
      · have heq : recurFlattenFlags (fuel + 1) env n vis =
            (Except.ok (), setF env1 n values, vis1) := by
          simp [recurFlattenFlags, hvis, hloop, hsz]
        rw [heq] at h
        simp at h
        obtain ⟨henv2, hvis2⟩ := h
        have hpureloop := flattenValuesF_to_pure fuel ih
          ((lookupF env n).getD []) env (n :: vis) values env1 vis1 hloop
        refine ⟨values, ?_, ?_⟩
        · rw [← hvis2]
          simp [expandP, hvis, hpureloop, hsz]
        · intro hsome
          rw [← henv2, lookupF_setF, if_pos rfl]
          have hinvloop := flattenValuesF_inv (recurFlattenFlags fuel)
            (recurFlattenFlags_inv fuel) ((lookupF env n).getD []) env (n :: vis)
          rw [hloop] at hinvloop
          have hkeys1 : keysOf env1 = keysOf env := hinvloop.1
          have hsome1 : (lookupF env1 n).isSome := by
            rw [lookupF_isSome_iff_mem, hkeys1, ← lookupF_isSome_iff_mem]
            exact hsome
          rcases hx : lookupF env1 n with _ | vs1
          · rw [hx] at hsome1; simp at hsome1
          · rfl

/-! ## A successful pure expansion implies a successful stateful run -/
theorem pure_to_flattenValuesF (fuel : Nat)
    (hp2s : ∀ env n vis flat vis2,
      expandP fuel env n vis = Except.ok (flat, vis2) →
      ∃ env2, recurFlattenFlags fuel env n vis = (Except.ok (), env2, vis2))
    (vals : List FlagVal) :
    ∀ env envc vis acc vis2,
      keysOf envc = keysOf env →
      (∀ k, k ∉ vis → lookupF envc k = lookupF env k) →
      expandListP (expandP fuel env) env vals vis = Except.ok (acc, vis2) →
      ∃ env2, flattenValuesF (recurFlattenFlags fuel) envc vals vis =
        (Except.ok acc, env2, vis2) := by
  induction vals with
  | nil =>
    intro env envc vis acc vis2 _ _ h
    simp only [expandListP] at h
    simp at h
    obtain ⟨h1, h2⟩ := h
    subst h1; subst h2
    exact ⟨envc, by simp [flattenValuesF]⟩
  | cons v rest ih =>
    intro env envc vis acc vis2 hkeys hag h
    cases hl : lookupF env v.name with
    | none =>
      have hlc : lookupF envc v.name = none :=
        (lookupF_none_congr envc env hkeys v.name).2 hl
      rcases hrest : expandListP (expandP fuel env) env rest vis with e | ⟨acc1, vis1⟩
      · have heq : expandListP (expandP fuel env) env (v :: rest) vis =
            Except.error e := by
          simp [expandListP, hl, hrest]
        rw [heq] at h; simp at h
      · have heq : expandListP (expandP fuel env) env (v :: rest) vis =
            Except.ok (v :: acc1, vis1) := by
          simp [expandListP, hl, hrest]
        rw [heq] at h
        simp at h
        obtain ⟨hacc, hvv⟩ := h
        subst hvv
        obtain ⟨env2, hstateful⟩ := ih env envc vis acc1 vis1 hkeys hag hrest
        refine ⟨env2, ?_⟩
        rw [← hacc]
        simp [flattenValuesF, hlc, hstateful]
    | some vs =>
      have hlc : ∃ vsc, lookupF envc v.name = some vsc := by
        rcases hx : lookupF envc v.name with _ | vsc
        · rw [(lookupF_none_congr envc env hkeys v.name).1 hx] at hl
          exact absurd hl (by simp)
        · exact ⟨vsc, rfl⟩
      obtain ⟨vsc, hlc⟩ := hlc
      rcases hr : expandP fuel env v.name vis with e | ⟨flatv, vis1⟩
      · have heq : expandListP (expandP fuel env) env (v :: rest) vis =
            Except.error e := by
          simp [expandListP, hl, hr]
        rw [heq] at h; simp at h
      · rcases hrest : expandListP (expandP fuel env) env rest vis1 with
          e | ⟨acc1, vis2b⟩
        · have heq : expandListP (expandP fuel env) env (v :: rest) vis =
              Except.error e := by
            simp [expandListP, hl, hr, hrest]
          rw [heq] at h; simp at h
        · have heq : expandListP (expandP fuel env) env (v :: rest) vis =
              Except.ok (flatv ++ acc1, vis2b) := by
            simp [expandListP, hl, hr, hrest]
          rw [heq] at h
          simp at h
          obtain ⟨hacc, hvv⟩ := h
          subst hvv
          -- now the target visited list is the one returned by the rest
          -- transport the pure sub-expansion to the current (mutated) map
          have hrc : expandP fuel envc v.name vis = Except.ok (flatv, vis1) := by
            rw [expandP_congr fuel envc env v.name vis hkeys hag]
            exact hr
          obtain ⟨envc1, hstate1⟩ := hp2s envc v.name vis flatv vis1 hrc
          -- the sub-run committed exactly the pure flat values
          obtain ⟨flat2, hpure2, hcommit⟩ :=
            recurFlattenFlags_to_pure fuel envc v.name vis envc1 vis1 hstate1
          rw [hrc] at hpure2
          have hflat2 : flat2 = flatv := by
            have := Except.ok.inj hpure2
            exact (Prod.mk.injEq .. ▸ this).1.symm
          subst hflat2
          have hcom : lookupF envc1 v.name = some flat2 :=
            hcommit (by rw [hlc]; rfl)
          have hinv := recurFlattenFlags_inv fuel envc v.name vis
          rw [hstate1] at hinv
          obtain ⟨hik, hiv, him, _⟩ := hinv
          have hsfx : vis <:+ vis1 :=
            (expandP_suffix fuel env v.name vis flat2 vis1 hr).1
          have hag1 : ∀ k, k ∉ vis1 → lookupF envc1 k = lookupF env k := by
            intro k hk
            have h1 : lookupF envc1 k = lookupF envc k := by
              by_contra hne
              exact hk ((him k hne).1)
            rw [h1]
            exact hag k (fun hkv => hk (hsfx.subset hkv))
          have hkeys1 : keysOf envc1 = keysOf env := hik.trans hkeys
          obtain ⟨env2, hstate2⟩ :=
            ih env envc1 vis1 acc1 vis2b hkeys1 hag1 hrest
          refine ⟨env2, ?_⟩
          rw [← hacc]
          have heqs : flattenValuesF (recurFlattenFlags fuel) envc (v :: rest) vis =
              (Except.ok ((lookupF envc1 v.name).getD [] ++ acc1), env2, vis2b) := by
            simp [flattenValuesF, hlc, hstate1, hstate2]
          rw [heqs, hcom]
          simp

theorem pure_to_recurFlattenFlags :
    ∀ fuel env n vis flat vis2,
      expandP fuel env n vis = Except.ok (flat, vis2) →
      ∃ env2, recurFlattenFlags fuel env n vis = (Except.ok (), env2, vis2) := by
  intro fuel
  induction fuel with
  | zero => intro env n vis flat vis2 h; simp [expandP] at h
  | succ fuel ih =>
    intro env n vis flat vis2 h
    by_cases hvis : n ∈ vis
    · have heq : expandP (fuel + 1) env n vis =
          Except.error (FlagErr.cyclic n) := by
        simp [expandP, hvis]
      rw [heq] at h; simp at h
    · rcases hloop : expandListP (expandP fuel env) env ((lookupF env n).getD [])
          (n :: vis) with e | ⟨values, vis1⟩
      · have heq : expandP (fuel + 1) env n vis = Except.error e := by
          simp [expandP, hvis, hloop]
        rw [heq] at h; simp at h
      · by_cases hsz : 100000 < values.length
        · have heq : expandP (fuel + 1) env n vis =
              Except.error (FlagErr.oversized n values.length) := by
            simp [expandP, hvis, hloop, hsz]
          rw [heq] at h; simp at h
        · have heq : expandP (fuel + 1) env n vis = Except.ok (values, vis1) := by
            simp [expandP, hvis, hloop, hsz]
          rw [heq] at h
          simp at h
          obtain ⟨hflat, hvv⟩ := h
          subst hvv
          obtain ⟨env1, hstateloop⟩ :=
            pure_to_flattenValuesF fuel ih ((lookupF env n).getD [])
              env env (n :: vis) values vis1 rfl (fun _ _ => rfl) hloop
          refine ⟨setF env1 n values, ?_⟩
          simp [recurFlattenFlags, hvis, hstateloop, hsz]

/-! ## Flattening an already-flat group is the identity -/
theorem flattenValuesF_leaves
    (rec : FlagEnv → String → List String → Except FlagErr Unit × FlagEnv × List String)
    (env : FlagEnv) (vals : List FlagVal)
    (h : ∀ v ∈ vals, lookupF env v.name = none) :
    ∀ vis, flattenValuesF rec env vals vis = (Except.ok vals, env, vis) := by
  induction vals with
  | nil => intro vis; simp [flattenValuesF]
  | cons v rest ih =>
    intro vis
    have hv : lookupF env v.name = none := h v (List.mem_cons_self _ _)
    have hrest := ih (fun w hw => h w (List.mem_cons_of_mem _ hw)) vis
    simp [flattenValuesF, hv, hrest]

/-- Flattening a group whose stored values are all leaves (and within the
ceiling) succeeds and changes nothing — in particular re-running the
flattener on an already-flattened map is the identity. -/
theorem recurFlattenFlags_flat_step (fuel : Nat) (env : FlagEnv) (n : String)
    (hnd : (keysOf env).Nodup)
    (hleaf : ∀ v ∈ (lookupF env n).getD [], lookupF env v.name = none)
    (hsz : ((lookupF env n).getD []).length ≤ 100000) :
    recurFlattenFlags (fuel + 1) env n [] = (Except.ok (), env, [n]) := by
  have hvis : n ∉ ([] : List String) := by simp
  have hloop := flattenValuesF_leaves (recurFlattenFlags fuel) env
    ((lookupF env n).getD []) hleaf [n]
  have hsz2 : ¬ 100000 < ((lookupF env n).getD []).length := by omega
  have hset : setF env n ((lookupF env n).getD []) = env := by
    rcases hx : lookupF env n with _ | vs
    · exact setF_not_mem env n _ hx
    · exact setF_lookup_self env n vs hnd hx
  simp [recurFlattenFlags, hloop, hsz2, hset]

/-- On a map whose every group already holds only leaf values within the
ceiling, `flattenIntFlags` leaves the map and the error counter untouched,
whatever iteration order the Go `range` produces. -/
theorem flattenIntFlags_flat (env : FlagEnv)
    (hnd : (keysOf env).Nodup)
    (hflat : ∀ g vs, lookupF env g = some vs →
      (∀ v ∈ vs, lookupF env v.name = none) ∧ vs.length ≤ 100000) :
    ∀ order errors, flattenIntFlags order env errors = (env, errors) := by
  intro order
  induction order with
  | nil => intro errors; rfl
  | cons name rest ih =>
    intro errors
    have hstep : recurFlattenFlags (flagFuel env) env name [] =
        (Except.ok (), env, [name]) := by
      have hleaf : ∀ v ∈ (lookupF env name).getD [], lookupF env v.name = none := by
        rcases hx : lookupF env name with _ | vs
        · simp
        · simpa using (hflat name vs hx).1
      have hsz : ((lookupF env name).getD []).length ≤ 100000 := by
        rcases hx : lookupF env name with _ | vs
        · simp
        · simpa using (hflat name vs hx).2
      have : flagFuel env = env.length + 1 := rfl
      rw [this]
      exact recurFlattenFlags_flat_step env.length env name hnd hleaf hsz
    have hstepeq : flattenIntFlagsStep (env, errors) name = (env, errors) := by
      unfold flattenIntFlagsStep
      rw [hstep]
    show List.foldl flattenIntFlagsStep (env, errors) (name :: rest) = (env, errors)
    rw [List.foldl_cons, hstepeq]
    exact ih errors

theorem expandP_ok_length :
    ∀ fuel env n vis flat vis2, expandP fuel env n vis = Except.ok (flat, vis2) →
      flat.length ≤ 100000 := by
  intro fuel env n vis flat vis2 h
  cases fuel with
  | zero => simp [expandP] at h
  | succ fuel =>
    by_cases hvis : n ∈ vis
    · have heq : expandP (fuel + 1) env n vis =
          Except.error (FlagErr.cyclic n) := by
        simp [expandP, hvis]
      rw [heq] at h; simp at h
    · rcases hloop : expandListP (expandP fuel env) env ((lookupF env n).getD [])
          (n :: vis) with e | ⟨values, vis1⟩
      · have heq : expandP (fuel + 1) env n vis = Except.error e := by
          simp [expandP, hvis, hloop]
        rw [heq] at h; simp at h
      · by_cases hsz : 100000 < values.length
        · have heq : expandP (fuel + 1) env n vis =
              Except.error (FlagErr.oversized n values.length) := by
            simp [expandP, hvis, hloop, hsz]
          rw [heq] at h; simp at h
        · have heq : expandP (fuel + 1) env n vis = Except.ok (values, vis1) := by
            simp [expandP, hvis, hloop, hsz]
          rw [heq] at h
          simp at h
          rw [← h.1]
          omega

theorem envDiamond_edge_rank :
    ∀ a b, flagEdge envDiamond a b → rankDiamond b < rankDiamond a := by
  intro a b hedge
  obtain ⟨hb, v, hv, hvn⟩ := hedge
  have ha : (lookupF envDiamond a).isSome := by
    rcases hx : lookupF envDiamond a with _ | vs
    · rw [hx] at hv; simp at hv
    · rfl
  rw [lookupF_isSome_iff_mem] at ha
  have hkeys : keysOf envDiamond = ["A", "B", "C", "D"] := by decide
  rw [hkeys] at ha
  simp at ha
  rcases ha with ha | ha | ha | ha <;> subst ha
  · have hva : lookupF envDiamond "A" = some [⟨"B", 0⟩, ⟨"C", 0⟩] := by decide
    rw [hva] at hv
    simp at hv
    rcases hv with hv | hv <;> subst hv <;> simp at hvn <;> subst hvn <;> decide
  · have hva : lookupF envDiamond "B" = some [⟨"D", 0⟩] := by decide
    rw [hva] at hv
    simp at hv
    subst hv; simp at hvn; subst hvn; decide
  · have hva : lookupF envDiamond "C" = some [⟨"D", 0⟩] := by decide
    rw [hva] at hv
    simp at hv
    subst hv; simp at hvn; subst hvn; decide
  · have hva : lookupF envDiamond "D" = some [⟨"", 1⟩] := by decide
    rw [hva] at hv
    simp at hv
    subst hv
    simp at hvn
    subst hvn
    rw [show lookupF envDiamond "" = none from by decide] at hb
    simp at hb

theorem envDiamond_acyclic : ∀ m, ¬ flagReaches envDiamond m m :=
  no_cycle_of_rank rankDiamond envDiamond_edge_rank

theorem envSelfRef_no_edge_from_D : ∀ b, ¬ flagEdge envSelfRef "D" b := by
  intro b hedge
  obtain ⟨hb, v, hv, hvn⟩ := hedge
  rw [show lookupF envSelfRef "D" = some [⟨"", 1⟩] from by decide] at hv
  simp at hv
  subst hv
  simp at hvn
  subst hvn
  rw [show lookupF envSelfRef "" = none from by decide] at hb
  simp at hb

theorem envSelfRef_D_not_cyclic : ¬ flagReaches envSelfRef "D" "D" := by
  intro h
  rcases transGen_head_cases h with hedge | ⟨c, hedge, _⟩
  · exact envSelfRef_no_edge_from_D "D" hedge
  · exact envSelfRef_no_edge_from_D c hedge

theorem envSelfRef_G_cyclic : flagReaches envSelfRef "G" "G" := by
  apply Relation.TransGen.single
  refine ⟨by decide, ⟨"G", 0⟩, ?_, rfl⟩
  rw [show lookupF envSelfRef "G" = some [⟨"B", 0⟩, ⟨"C", 0⟩, ⟨"G", 0⟩] from by decide]
  decide

theorem lookupF_mem : ∀ (env : FlagEnv) (g : String) (vs : List FlagVal),
    lookupF env g = some vs → (g, vs) ∈ env := by
  intro env
  induction env with
  | nil => intro g vs h; simp [lookupF] at h
  | cons p rest ih =>
    intro g vs h
    obtain ⟨k, kvs⟩ := p
    by_cases hk : k = g
    · subst hk
      simp only [lookupF, if_pos rfl] at h
      rw [Option.some.inj h]
      exact List.mem_cons_self _ _
    · simp only [lookupF, if_neg hk] at h
      exact List.mem_cons_of_mem _ (ih g vs h)

/-! ## Claims about flag flattening -/

/-- Claim C2, corrected.  For a flag group `G` that references itself
directly or transitively, `recurFlattenFlags` always fails — with a real
error, never by running out of steps — and `G`'s `Values` are left exactly
as they were (`SetValues` is never reached for `G`).  The part of the claim
that does not survive is "the error message names the group involved in the
cycle": the name in the message is the first name reached twice by the
depth-first expansion, which may be an acyclic group reached through two
different member paths (see the counterexample). -/
theorem claim_C2 (env : FlagEnv) (G : String) (hcyc : flagReaches env G G) :
    (∃ e, (recurFlattenFlags (flagFuel env) env G []).1 = Except.error e ∧
      e ≠ FlagErr.fuelOut) ∧
    lookupF (recurFlattenFlags (flagFuel env) env G []).2.1 G = lookupF env G := by
  rcases hout : recurFlattenFlags (flagFuel env) env G [] with ⟨res, env2, vis2⟩
  have hinv := recurFlattenFlags_inv (flagFuel env) env G []
  rw [hout] at hinv
  obtain ⟨_, _, _, hE, _, _⟩ := hinv
  cases res with
  | ok u =>
    exfalso
    obtain ⟨⟩ := u
    obtain ⟨flat, hpure, _⟩ :=
      recurFlattenFlags_to_pure (flagFuel env) env G [] env2 vis2 hout
    exact expandP_no_reach_visited (flagFuel env) env G [] flat vis2 hpure G hcyc
      (List.mem_cons_self _ _)
  | error e =>
    have hnf : e ≠ FlagErr.fuelOut := by
      have := flagFuel_sufficient env G
      rw [hout] at this
      simpa using this
    exact ⟨⟨e, rfl, hnf⟩, hE e rfl⟩

/-- Claim C2, counterexample to the claim as stated: `G = {B, C, G}` with
`B = {D}`, `C = {D}`, `D = {1}` references itself directly, yet the reported
cyclic-dependency error names `D` — a group that lies on no cycle at all (it
was merely reached twice, through `B` and through `C`). -/
theorem claim_C2_counterexample :
    (recurFlattenFlags (flagFuel envSelfRef) envSelfRef "G" []).1 =
      Except.error (FlagErr.cyclic "D") ∧
    flagReaches envSelfRef "G" "G" ∧
    ¬ flagReaches envSelfRef "D" "D" :=
  ⟨by decide, envSelfRef_G_cyclic, envSelfRef_D_not_cyclic⟩

/-- Claim C2, witness for the amended theorem at the self-referential
concrete graph. -/
theorem claim_C2_witness :
    (∃ e, (recurFlattenFlags (flagFuel envSelfRef) envSelfRef "G" []).1 =
      Except.error e ∧ e ≠ FlagErr.fuelOut) ∧
    lookupF (recurFlattenFlags (flagFuel envSelfRef) envSelfRef "G" []).2.1 "G" =
      lookupF envSelfRef "G" :=
  claim_C2 envSelfRef "G" envSelfRef_G_cyclic

/-- Claim C3, corrected and amended.  The original claim promised success for
every group with no circular references; the diamond counterexample below
refutes that (the per-call visited set rejects any name reached twice, cyclic
or not).  Amended: if the depth-first expansion of `G` against the current
map — the pure expansion `expandP`, which tracks the same persistent visited
set and the same 100000 ceiling — completes, then `recurFlattenFlags`
succeeds, commits exactly the expansion's value list for `G`, every group is
visited at most once, the committed length is the sum over the visited
groups of their leaf-literal counts, and running the flattener again changes
nothing (idempotence). -/
theorem claim_C3 (env : FlagEnv) (G : String) (flat : List FlagVal)
    (vis2 : List String) (hnd : (keysOf env).Nodup)
    (hpure : expandP (flagFuel env) env G [] = Except.ok (flat, vis2)) :
    ∃ env2,
      recurFlattenFlags (flagFuel env) env G [] = (Except.ok (), env2, vis2) ∧
      ((lookupF env G).isSome → lookupF env2 G = some flat) ∧
      vis2.Nodup ∧ G ∈ vis2 ∧ flat.length = sumLeaf env vis2 ∧
      recurFlattenFlags (flagFuel env) env2 G [] = (Except.ok (), env2, [G]) := by
  obtain ⟨env2, hstate⟩ :=
    pure_to_recurFlattenFlags (flagFuel env) env G [] flat vis2 hpure
  obtain ⟨flat2, hpure2, hcommit⟩ :=
    recurFlattenFlags_to_pure (flagFuel env) env G [] env2 vis2 hstate
  have hflat2 : flat2 = flat := by
    have h := hpure.symm.trans hpure2
    have := Except.ok.inj h
    exact ((Prod.mk.injEq .. ▸ this).1).symm
  subst hflat2
  obtain ⟨nn, ⟨hv, hnodup, _, hlen, hleaves⟩, hGnn⟩ :=
    expandP_length (flagFuel env) env G [] flat2 vis2 hpure
  have hnn : nn = vis2 := by simpa using hv.symm
  rw [hnn] at hnodup hGnn hlen
  have hinv := recurFlattenFlags_inv (flagFuel env) env G []
  rw [hstate] at hinv
  have hkeys2 : keysOf env2 = keysOf env := hinv.1
  have hlenb : flat2.length ≤ 100000 :=
    expandP_ok_length (flagFuel env) env G [] flat2 vis2 hpure
  have hleaf2 : ∀ v ∈ (lookupF env2 G).getD [], lookupF env2 v.name = none := by
    rcases hsome : lookupF env G with _ | vs0
    · have : lookupF env2 G = none := by
        rw [lookupF_none_iff_not_mem, hkeys2, ← lookupF_none_iff_not_mem]
        exact hsome
      rw [this]
      simp
    · have hc : lookupF env2 G = some flat2 := hcommit (by rw [hsome]; rfl)
      rw [hc]
      intro v hvmem
      rw [lookupF_none_congr env2 env hkeys2]
      exact hleaves v (by simpa using hvmem)
  have hsz2 : ((lookupF env2 G).getD []).length ≤ 100000 := by
    rcases hsome : lookupF env G with _ | vs0
    · have : lookupF env2 G = none := by
        rw [lookupF_none_iff_not_mem, hkeys2, ← lookupF_none_iff_not_mem]
        exact hsome
      rw [this]
      simp
    · have hc : lookupF env2 G = some flat2 := hcommit (by rw [hsome]; rfl)
      rw [hc]
      simpa using hlenb
  have hnd2 : (keysOf env2).Nodup := by rw [hkeys2]; exact hnd
  have hidem := recurFlattenFlags_flat_step env.length env2 G hnd2 hleaf2 hsz2
  exact ⟨env2, hstate, hcommit, hnodup, hGnn, hlen, hidem⟩

/-- Claim C3, counterexample to the claim as stated: the diamond
`A = {B, C}`, `B = {D}`, `C = {D}`, `D = {1}` has no circular reference at
all (witnessed by a strictly decreasing rank), yet flattening `A` fails with
the used-twice/circular error, and `A`'s `Values` stay unset. -/
theorem claim_C3_counterexample :
    (∀ m, ¬ flagReaches envDiamond m m) ∧
    (recurFlattenFlags (flagFuel envDiamond) envDiamond "A" []).1 =
      Except.error (FlagErr.cyclic "D") ∧
    lookupF (recurFlattenFlags (flagFuel envDiamond) envDiamond "A" []).2.1 "A" =
      some [⟨"B", 0⟩, ⟨"C", 0⟩] :=
  ⟨envDiamond_acyclic, by decide, by decide⟩

/-- Claim C3, witness: `A = {1, 2, B}`, `B = {3, 4}` flattens to
`{1, 2, 3, 4}`, of length `2 + 2`, visiting `B` and `A` once each, and
re-running the flattener is the identity. -/
theorem claim_C3_witness :
    ∃ env2,
      recurFlattenFlags (flagFuel envTreeW) envTreeW "A" [] =
        (Except.ok (), env2, ["B", "A"]) ∧
      ((lookupF envTreeW "A").isSome → lookupF env2 "A" =
        some [⟨"", 1⟩, ⟨"", 2⟩, ⟨"", 3⟩, ⟨"", 4⟩]) ∧
      (["B", "A"] : List String).Nodup ∧ "A" ∈ (["B", "A"] : List String) ∧
      ([⟨"", 1⟩, ⟨"", 2⟩, ⟨"", 3⟩, ⟨"", 4⟩] : List FlagVal).length =
        sumLeaf envTreeW ["B", "A"] ∧
      recurFlattenFlags (flagFuel envTreeW) env2 "A" [] =
        (Except.ok (), env2, ["A"]) :=
  claim_C3 envTreeW "A" [⟨"", 1⟩, ⟨"", 2⟩, ⟨"", 3⟩, ⟨"", 4⟩] ["B", "A"]
    (by decide) (by decide)

/-- Claim C4, confirmed.  A successful `recurFlattenFlags` run commits a
value list of at most 100000 entries for the group; and every oversize error
reports a count strictly above 100000 and leaves the offending group's
`Values` unchanged (the error return precedes `SetValues`).  In particular a
group whose flattened list stays within 100000 entries is never rejected by
the ceiling check. -/
theorem claim_C4 (fuel : Nat) (env : FlagEnv) (n : String) (vis : List String) :
    ((recurFlattenFlags fuel env n vis).1 = Except.ok () →
      ∀ vs0, lookupF env n = some vs0 →
        ∃ vals, lookupF (recurFlattenFlags fuel env n vis).2.1 n = some vals ∧
          vals.length ≤ 100000) ∧
    (∀ m c, (recurFlattenFlags fuel env n vis).1 =
        Except.error (FlagErr.oversized m c) →
      100000 < c ∧
        lookupF (recurFlattenFlags fuel env n vis).2.1 m = lookupF env m) := by
  have hinv := recurFlattenFlags_inv fuel env n vis
  obtain ⟨_, _, _, _, ho, hs⟩ := hinv
  exact ⟨fun h vs0 hv => (hs h).2.2 vs0 hv,
    fun m c h => ⟨(ho m c h).1, (ho m c h).2.1⟩⟩

/-- Claim C4, witness at a one-group map. -/
theorem claim_C4_witness :
    ∃ vals, lookupF (recurFlattenFlags 2 [("A", [⟨"", 7⟩])] "A" []).2.1 "A" =
      some vals ∧ vals.length ≤ 100000 :=
  (claim_C4 2 [("A", [⟨"", 7⟩])] "A" []).1 (by decide) [⟨"", 7⟩] (by decide)

/-- Claim C8, corrected and amended.  For a fixed iteration order the
flattening phase is a function of its inputs; and on maps whose groups hold
only literal values (within the ceiling) the result is independent of the
iteration order altogether.  What fails in the original claim is exactly the
order-independence in general: Go's `range` over `comp.intFlags` may visit
groups in any order, and the diamond counterexample shows two orders with
observably different outcomes (one errors, the other succeeds). -/
theorem claim_C8 (env : FlagEnv) (hnd : (keysOf env).Nodup)
    (hflat : ∀ g vs, lookupF env g = some vs →
      (∀ v ∈ vs, lookupF env v.name = none) ∧ vs.length ≤ 100000) :
    ∀ order1 order2 errors,
      flattenIntFlags order1 env errors = flattenIntFlags order2 env errors := by
  intro o1 o2 errors
  rw [flattenIntFlags_flat env hnd hflat o1 errors,
    flattenIntFlags_flat env hnd hflat o2 errors]

/-- Claim C8, counterexample to the claim as stated: two iteration orders of
the same four-group map — both permutations of its key set — give different
compilation outcomes (flattening `A` first fails on the diamond and bumps the
error counter; flattening `B` and `C` first succeeds). -/
theorem claim_C8_counterexample :
    (["A", "B", "C", "D"] : List String).Perm ["B", "C", "A", "D"] ∧
    (["A", "B", "C", "D"] : List String).Perm (keysOf envDiamond) ∧
    flattenIntFlags ["A", "B", "C", "D"] envDiamond 0 ≠
      flattenIntFlags ["B", "C", "A", "D"] envDiamond 0 :=
  ⟨by decide, by decide, by decide⟩

/-- Claim C8, witness: on a literal-only map two different orders agree. -/
theorem claim_C8_witness :
    flattenIntFlags ["A", "B"] [("A", [⟨"", 1⟩]), ("B", [⟨"", 2⟩])] 0 =
      flattenIntFlags ["B", "A"] [("A", [⟨"", 1⟩]), ("B", [⟨"", 2⟩])] 0 := by
  apply claim_C8 [("A", [⟨"", 1⟩]), ("B", [⟨"", 2⟩])] (by decide)
  intro g vs h
  have hmem := lookupF_mem _ g vs h
  simp at hmem
  rcases hmem with ⟨hg, hvs⟩ | ⟨hg, hvs⟩ <;> subst hg <;> subst hvs <;>
    exact ⟨by decide, by decide⟩

/-- Claim C10, confirmed.  The visited set of one flattening call is never
cleared: a name found in the visited set is rejected on the spot with the
used-twice/circular error and nothing is modified; any error leaves the
flattened group's `Values` unchanged; and the acyclic diamond — where `D` is
merely reachable along two member paths — is rejected exactly this way, with
`A`'s `Values` left unset. -/
theorem claim_C10 :
    (∀ fuel env n vis, n ∈ vis →
      recurFlattenFlags (fuel + 1) env n vis =
        (Except.error (FlagErr.cyclic n), env, vis)) ∧
    (∀ fuel env n vis e, (recurFlattenFlags fuel env n vis).1 = Except.error e →
      lookupF (recurFlattenFlags fuel env n vis).2.1 n = lookupF env n) ∧
    (∀ m, ¬ flagReaches envDiamond m m) ∧
    (recurFlattenFlags (flagFuel envDiamond) envDiamond "A" []).1 =
      Except.error (FlagErr.cyclic "D") ∧
    lookupF (recurFlattenFlags (flagFuel envDiamond) envDiamond "A" []).2.1 "A" =
      lookupF envDiamond "A" := by
  refine ⟨?_, ?_, envDiamond_acyclic, by decide, by decide⟩
  · intro fuel env n vis hvis
    simp [recurFlattenFlags, hvis]
  · intro fuel env n vis e h
    obtain ⟨_, _, _, hE, _, _⟩ := recurFlattenFlags_inv fuel env n vis
    exact hE e h

/-- Claim C10, witness: a name already on the visited stack is rejected. -/
theorem claim_C10_witness :
    recurFlattenFlags 1 [] "X" ["X"] =
      (Except.error (FlagErr.cyclic "X"), [], ["X"]) :=
  claim_C10.1 0 [] "X" ["X"] (by decide)

theorem lookupA_append_left {β : Type} (l1 l2 : List (String × β)) (k : String)
    (v : β) (h : lookupA l1 k = some v) : lookupA (l1 ++ l2) k = some v := by
  induction l1 with
  | nil => simp [lookupA] at h
  | cons p rest ih =>
    obtain ⟨pk, pv⟩ := p
    by_cases hk : pk = k
    · subst hk
      simp only [lookupA, if_pos rfl] at h ⊢
      exact h
    · simp only [lookupA, if_neg hk] at h ⊢
      exact ih h

theorem parseAttrIntArg_errs (attr : AstType) (errs : Errs) :
    ∀ p m, (p, m) ∈ (parseAttrIntArg attr errs).1 →
      (p, m) ∈ errs ∨ p = attr.pos ∨ p ∈ attr.args.map AstType.pos := by
  intro p m h
  rcases hargs : attr.args with _ | ⟨sz, rest2⟩
  · simp only [parseAttrIntArg, hargs] at h
    simp at h
    rcases h with h | h
    · exact Or.inl h
    · exact Or.inr (Or.inl h.1)
  · rcases rest2 with _ | ⟨s2, rest3⟩
    · simp only [parseAttrIntArg, hargs] at h
      by_cases hk : astKind sz ≠ AstKind.intKind
      · rw [if_pos hk] at h
        simp at h
        rcases h with h | h
        · exact Or.inl h
        · refine Or.inr (Or.inr ?_)
          rw [h.1]
          simp
      · rw [if_neg hk] at h
        by_cases hc : !sz.colon.isEmpty || !sz.args.isEmpty
        · rw [if_pos hc] at h
          simp at h
          rcases h with h | h
          · exact Or.inl h
          · refine Or.inr (Or.inr ?_)
            rw [h.1]
            simp
        · rw [if_neg hc] at h
          exact Or.inl h
    · simp only [parseAttrIntArg, hargs] at h
      simp at h
      rcases h with h | h
      · exact Or.inl h
      · exact Or.inr (Or.inl h.1)

theorem parseAttrExprArg_errs (attr : AstType) (errs : Errs) :
    ∀ p m, (p, m) ∈ (parseAttrExprArg attr errs).1 →
      (p, m) ∈ errs ∨ p = attr.pos := by
  intro p m h
  rcases hargs : attr.args with _ | ⟨arg, rest2⟩
  · simp only [parseAttrExprArg, hargs] at h
    simp at h
    rcases h with h | h
    · exact Or.inl h
    · exact Or.inr h.1
  · rcases rest2 with _ | ⟨a2, rest3⟩
    · simp only [parseAttrExprArg, hargs] at h
      by_cases hs : arg.hasString
      · rw [if_pos hs] at h
        simp at h
        rcases h with h | h
        · exact Or.inl h
        · exact Or.inr h.1
      · rw [if_neg hs] at h
        exact Or.inl h
    · simp only [parseAttrExprArg, hargs] at h
      simp at h
      rcases h with h | h
      · exact Or.inl h
      · exact Or.inr h.1

theorem parseAttrStringArg_errs (attr : AstType) (errs : Errs) :
    ∀ p m, (p, m) ∈ (parseAttrStringArg attr errs).1 →
      (p, m) ∈ errs ∨ p = attr.pos := by
  intro p m h
  rcases hargs : attr.args with _ | ⟨arg, rest2⟩
  · simp only [parseAttrStringArg, hargs] at h
    simp at h
    rcases h with h | h
    · exact Or.inl h
    · exact Or.inr h.1
  · rcases rest2 with _ | ⟨a2, rest3⟩
    · simp only [parseAttrStringArg, hargs] at h
      by_cases hs : !arg.hasString
      · rw [if_pos hs] at h
        simp at h
        rcases h with h | h
        · exact Or.inl h
        · exact Or.inr h.1
      · rw [if_neg hs] at h
        exact Or.inl h
    · simp only [parseAttrStringArg, hargs] at h
      simp at h
      rcases h with h | h
      · exact Or.inl h
      · exact Or.inr h.1

/-- No-override and error-position invariants of the `parseAttrs` loop:
every diagnostic it adds is located at a position occurring in the attribute
list itself (the parent's position is not even available to it), and a value
once recorded in one of the three maps is never replaced. -/
theorem parseAttrsGo_props (descs : List attrDesc) (pt pn : String) :
    ∀ attrs errs acc,
      (∀ p m, (p, m) ∈ (parseAttrsGo descs pt pn attrs errs acc).1 →
        (p, m) ∈ errs ∨ p ∈ attrPositions attrs) ∧
      (∀ res, (parseAttrsGo descs pt pn attrs errs acc).2 = some res →
        (∀ k v, lookupA acc.int k = some v → lookupA res.int k = some v) ∧
        (∀ k v, lookupA acc.expr k = some v → lookupA res.expr k = some v) ∧
        (∀ k v, lookupA acc.str k = some v → lookupA res.str k = some v)) := by
  intro attrs
  induction attrs with
  | nil =>
    intro errs acc
    constructor
    · intro p m h
      simp only [parseAttrsGo] at h
      exact Or.inl h
    · intro res h
      simp only [parseAttrsGo] at h
      rw [← Option.some.inj h]
      exact ⟨fun k v hv => hv, fun k v hv => hv, fun k v hv => hv⟩
  | cons attr rest ih =>
    intro errs acc
    have hconspos : attrPositions (attr :: rest) =
        (attr.pos :: (attr.colon ++ attr.args.map AstType.pos)) ++
          attrPositions rest := by
      simp [attrPositions]
    have hposhead : attr.pos ∈ attrPositions (attr :: rest) := by
      rw [hconspos]
      exact List.mem_append_left _ (List.mem_cons_self _ _)
    have hposrest : ∀ p, p ∈ attrPositions rest → p ∈ attrPositions (attr :: rest) := by
      intro p hp
      rw [hconspos]
      exact List.mem_append_right _ hp
    have hposargs : ∀ p, p ∈ attr.args.map AstType.pos →
        p ∈ attrPositions (attr :: rest) := by
      intro p hp
      rw [hconspos]
      exact List.mem_append_left _
        (List.mem_cons_of_mem _ (List.mem_append_right _ hp))
    have hposcolon : ∀ p, p ∈ attr.colon → p ∈ attrPositions (attr :: rest) := by
      intro p hp
      rw [hconspos]
      exact List.mem_append_left _
        (List.mem_cons_of_mem _ (List.mem_append_left _ hp))
    by_cases hkind : astKind attr ≠ AstKind.identKind
    · have heq : parseAttrsGo descs pt pn (attr :: rest) errs acc =
          (errs ++ [(attr.pos, CMsg.expectAttribute (astKind attr))], some acc) := by
        simp [parseAttrsGo, hkind]
      rw [heq]
      constructor
      · intro p m h
        simp at h
        rcases h with h | h
        · exact Or.inl h
        · exact Or.inr (h.1 ▸ hposhead)
      · intro res h
        rw [← Option.some.inj h]
        exact ⟨fun k v hv => hv, fun k v hv => hv, fun k v hv => hv⟩
    · rcases hcolon : attr.colon with _ | ⟨cp, crest⟩
      · rcases hdesc : lookupD descs attr.ident with _ | d
        · have heq : parseAttrsGo descs pt pn (attr :: rest) errs acc =
              (errs ++ [(attr.pos, CMsg.unknownAttr pt pn attr.ident)], some acc) := by
            simp [parseAttrsGo, hkind, hcolon, hdesc]
          rw [heq]
          constructor
          · intro p m h
            simp at h
            rcases h with h | h
            · exact Or.inl h
            · exact Or.inr (h.1 ▸ hposhead)
          · intro res h
            rw [← Option.some.inj h]
            exact ⟨fun k v hv => hv, fun k v hv => hv, fun k v hv => hv⟩
        · by_cases hdup : (lookupA acc.int d.name).isSome ∨
              (lookupA acc.expr d.name).isSome ∨ (lookupA acc.str d.name).isSome
          · have heq : parseAttrsGo descs pt pn (attr :: rest) errs acc =
                (errs ++ [(attr.pos, CMsg.duplicateAttr pt pn attr.ident)],
                  some acc) := by
              simp [parseAttrsGo, hkind, hcolon, hdesc, hdup]
            rw [heq]
            constructor
            · intro p m h
              simp at h
              rcases h with h | h
              · exact Or.inl h
              · exact Or.inr (h.1 ▸ hposhead)
            · intro res h
              rw [← Option.some.inj h]
              exact ⟨fun k v hv => hv, fun k v hv => hv, fun k v hv => hv⟩
          · cases hdtype : d.type with
            | flagAttr =>
              by_cases hargs : !attr.args.isEmpty
              · have heq : parseAttrsGo descs pt pn (attr :: rest) errs acc =
                    (errs ++ [(attr.pos, CMsg.flagHasArgs attr.ident)], none) := by
                  simp [parseAttrsGo, hkind, hcolon, hdesc, hdup, hdtype, hargs]
                rw [heq]
                constructor
                · intro p m h
                  simp at h
                  rcases h with h | h
                  · exact Or.inl h
                  · exact Or.inr (h.1 ▸ hposhead)
                · intro res h
                  simp at h
              · have heq : parseAttrsGo descs pt pn (attr :: rest) errs acc =
                    parseAttrsGo descs pt pn rest errs
                      { acc with int := acc.int ++ [(d.name, 1)] } := by
                  simp [parseAttrsGo, hkind, hcolon, hdesc, hdup, hdtype, hargs]
                rw [heq]
                obtain ⟨ihp, iho⟩ := ih errs { acc with int := acc.int ++ [(d.name, 1)] }
                constructor
                · intro p m h
                  rcases ihp p m h with h | h
                  · exact Or.inl h
                  · exact Or.inr (hposrest p h)
                · intro res h
                  obtain ⟨o1, o2, o3⟩ := iho res h
                  refine ⟨?_, o2, o3⟩
                  intro k v hv
                  exact o1 k v (lookupA_append_left _ _ _ _ hv)
            | intAttr =>
              rcases hparse : parseAttrIntArg attr errs with ⟨errs2, v2⟩
              have heq : parseAttrsGo descs pt pn (attr :: rest) errs acc =
                  parseAttrsGo descs pt pn rest errs2
                    { acc with int := acc.int ++ [(d.name, v2)] } := by
                simp [parseAttrsGo, hkind, hcolon, hdesc, hdup, hdtype, hparse]
              rw [heq]
              obtain ⟨ihp, iho⟩ := ih errs2 { acc with int := acc.int ++ [(d.name, v2)] }
              constructor
              · intro p m h
                rcases ihp p m h with h | h
                · have h2 := parseAttrIntArg_errs attr errs p m (by rw [hparse]; exact h)
                  rcases h2 with h2 | h2 | h2
                  · exact Or.inl h2
                  · exact Or.inr (h2 ▸ hposhead)
                  · exact Or.inr (hposargs p h2)
                · exact Or.inr (hposrest p h)
              · intro res h
                obtain ⟨o1, o2, o3⟩ := iho res h
                refine ⟨?_, o2, o3⟩
                intro k v hv
                exact o1 k v (lookupA_append_left _ _ _ _ hv)
            | exprAttr =>
              rcases hparse : parseAttrExprArg attr errs with ⟨errs2, v2⟩
              have heq : parseAttrsGo descs pt pn (attr :: rest) errs acc =
                  parseAttrsGo descs pt pn rest errs2
                    { acc with expr := acc.expr ++ [(d.name, v2)] } := by
                simp [parseAttrsGo, hkind, hcolon, hdesc, hdup, hdtype, hparse]
              rw [heq]
              obtain ⟨ihp, iho⟩ := ih errs2 { acc with expr := acc.expr ++ [(d.name, v2)] }
              constructor
              · intro p m h
                rcases ihp p m h with h | h
                · have h2 := parseAttrExprArg_errs attr errs p m (by rw [hparse]; exact h)
                  rcases h2 with h2 | h2
                  · exact Or.inl h2
                  · exact Or.inr (h2 ▸ hposhead)
                · exact Or.inr (hposrest p h)
              · intro res h
                obtain ⟨o1, o2, o3⟩ := iho res h
                refine ⟨o1, ?_, o3⟩
                intro k v hv
                exact o2 k v (lookupA_append_left _ _ _ _ hv)
            | stringAttr =>
              rcases hparse : parseAttrStringArg attr errs with ⟨errs2, v2⟩
              have heq : parseAttrsGo descs pt pn (attr :: rest) errs acc =
                  parseAttrsGo descs pt pn rest errs2
                    { acc with str := acc.str ++ [(d.name, v2)] } := by
                simp [parseAttrsGo, hkind, hcolon, hdesc, hdup, hdtype, hparse]
              rw [heq]
              obtain ⟨ihp, iho⟩ := ih errs2 { acc with str := acc.str ++ [(d.name, v2)] }
              constructor
              · intro p m h
                rcases ihp p m h with h | h
                · have h2 := parseAttrStringArg_errs attr errs p m (by rw [hparse]; exact h)
                  rcases h2 with h2 | h2
                  · exact Or.inl h2
                  · exact Or.inr (h2 ▸ hposhead)
                · exact Or.inr (hposrest p h)
              · intro res h
                obtain ⟨o1, o2, o3⟩ := iho res h
                refine ⟨o1, o2, ?_⟩
                intro k v hv
                exact o3 k v (lookupA_append_left _ _ _ _ hv)
      · have heq : parseAttrsGo descs pt pn (attr :: rest) errs acc =
            (errs ++ [(cp, CMsg.unexpectedColon)], some acc) := by
          simp [parseAttrsGo, hkind, hcolon]
        rw [heq]
        constructor
        · intro p m h
          simp at h
          rcases h with h | h
          · exact Or.inl h
          · refine Or.inr ?_
            rw [h.1]
            exact hposcolon cp (by rw [hcolon]; simp)
        · intro res h
          rw [← Option.some.inj h]
          exact ⟨fun k v hv => hv, fun k v hv => hv, fun k v hv => hv⟩

/-- Claim C7, corrected and amended.  What survives of the claim: every
diagnostic `parseAttrs` raises is located at a position taken from the
attribute list itself — the attribute's own position, a colon position or an
argument position — never at the parent declaration's position (the loop
discards the parent's position entirely); a duplicate attribute stops the
scan on the spot, keeps the already-recorded value of the first occurrence
and parses no further attributes; and a recorded value is never overridden.
What does not survive: `parseAttrs` does NOT stop at every malformed
attribute — an int/expr/string attribute with a wrong argument count or
argument kind raises an error and then parsing continues with the remaining
attributes, recording a zero/empty placeholder (see the counterexample). -/
theorem claim_C7 :
    (∀ descs pt pn attrs errs p m,
      (p, m) ∈ (parseAttrs descs pt pn attrs errs).1 →
        (p, m) ∈ errs ∨ p ∈ attrPositions attrs) ∧
    (∀ (descs : List attrDesc) (pt pn : String) (attr : AstType)
        (rest : List AstType) (errs : Errs) (acc : AttrRes) (d : attrDesc),
      astKind attr = AstKind.identKind → attr.colon = [] →
      lookupD descs attr.ident = some d →
      (lookupA acc.int d.name).isSome →
      parseAttrsGo descs pt pn (attr :: rest) errs acc =
        (errs ++ [(attr.pos, CMsg.duplicateAttr pt pn attr.ident)], some acc)) ∧
    (∀ descs pt pn attrs errs acc res,
      (parseAttrsGo descs pt pn attrs errs acc).2 = some res →
      (∀ k v, lookupA acc.int k = some v → lookupA res.int k = some v) ∧
      (∀ k v, lookupA acc.expr k = some v → lookupA res.expr k = some v) ∧
      (∀ k v, lookupA acc.str k = some v → lookupA res.str k = some v)) := by
  refine ⟨?_, ?_, ?_⟩
  · intro descs pt pn attrs errs p m h
    exact (parseAttrsGo_props descs pt pn attrs errs ⟨[], [], []⟩).1 p m h
  · intro descs pt pn attr rest errs acc d hkind hcolon hdesc hdup
    simp [parseAttrsGo, hkind, hcolon, hdesc, hdup]
  · intro descs pt pn attrs errs acc res h
    exact (parseAttrsGo_props descs pt pn attrs errs acc).2 res h

/-- Claim C7, counterexample to the claim as stated: the malformed
`align(1, 2)` (an int attribute must take exactly one argument) raises an
error at its own position 10, yet the scan does not stop — the later
`packed` attribute is still parsed and recorded in the result maps. -/
theorem claim_C7_counterexample :
    (parseAttrs descsC7 "struct" "foo" attrsC7 []).1 =
      [(10, CMsg.expectedOneArg "align")] ∧
    ∃ res, (parseAttrs descsC7 "struct" "foo" attrsC7 []).2 = some res ∧
      lookupA res.int "packed" = some 1 :=
  ⟨rfl, ⟨⟨[("align", 0), ("packed", 1)], [], []⟩, rfl, rfl⟩⟩

/-- Claim C7, witness: a second `packed` attribute on the same node is
reported as a duplicate at its own position, the first recorded value is
kept, and nothing further is parsed. -/
theorem claim_C7_witness :
    parseAttrsGo [⟨"packed", AttrType.flagAttr⟩] "struct" "foo"
      [AstType.mk 7 "packed" false "" 0 [] []] [] ⟨[("packed", 1)], [], []⟩ =
      ([(7, CMsg.duplicateAttr "struct" "foo" "packed")],
        some ⟨[("packed", 1)], [], []⟩) :=
  claim_C7.2.1 [⟨"packed", AttrType.flagAttr⟩] "struct" "foo"
    (AstType.mk 7 "packed" false "" 0 [] []) [] [] ⟨[("packed", 1)], [], []⟩
    ⟨"packed", AttrType.flagAttr⟩ (by decide) rfl rfl rfl

theorem lookupA_isSome_iff_mem {β : Type} (l : List (String × β)) (k : String) :
    (lookupA l k).isSome ↔ k ∈ keysL l := by
  induction l with
  | nil => simp [lookupA, keysL]
  | cons p rest ih =>
    obtain ⟨pk, pv⟩ := p
    by_cases h : pk = k
    · subst h; simp [lookupA, keysL]
    · simp [lookupA, keysL, h, ih]
      intro heq
      exact absurd heq.symm h

theorem lookupA_none_iff_not_mem {β : Type} (l : List (String × β)) (k : String) :
    lookupA l k = none ↔ k ∉ keysL l := by
  rw [← lookupA_isSome_iff_mem]
  cases lookupA l k <;> simp

theorem lookupA_append {β : Type} (l1 l2 : List (String × β)) (k : String) :
    lookupA (l1 ++ l2) k =
      match lookupA l1 k with
      | some v => some v
      | none => lookupA l2 k := by
  induction l1 with
  | nil => simp [lookupA]
  | cons p rest ih =>
    obtain ⟨pk, pv⟩ := p
    by_cases h : pk = k
    · subst h; simp [lookupA]
    · simp [lookupA, h, ih]

theorem countP_unvis_anti_gen (l : List String) (vis vis2 : List String)
    (h : ∀ k, k ∈ vis → k ∈ vis2) :
    l.countP (fun k => decide (k ∉ vis2)) ≤ l.countP (fun k => decide (k ∉ vis)) := by
  apply List.countP_mono_left
  intro k _ hk
  simp only [decide_eq_true_eq] at hk ⊢
  intro hmem
  exact hk (h k hmem)

theorem unmemoS_append_le (structs : Structs) (memo : VMemo) (pre : VMemo) :
    unmemoS structs (pre ++ memo) ≤ unmemoS structs memo := by
  unfold unmemoS
  apply countP_unvis_anti_gen
  intro k hk
  simp at hk ⊢
  tauto

theorem unmemoS_cons_lt (structs : Structs) (memo : VMemo) (n : String) (b : Bool)
    (hmem : n ∈ structs.map Prod.fst) (hnm : n ∉ memo.map Prod.fst) :
    unmemoS structs ((n, b) :: memo) < unmemoS structs memo := by
  unfold unmemoS
  have := countP_unvis_cons_lt (structs.map Prod.fst) (memo.map Prod.fst) n hmem hnm
  simpa using this

/-! ## Memo growth and sufficient fuel for `structIsVarlen` -/
theorem fieldsVarlenF_growth
    (rec : VMemo → String → Option (Bool × VMemo))
    (hrec : ∀ memo n out, rec memo n = some out → ∃ pre, out.2 = pre ++ memo)
    (flds : List Field) :
    ∀ memo out, fieldsVarlenF rec memo flds = some out → ∃ pre, out.2 = pre ++ memo := by
  induction flds with
  | nil =>
    intro memo out h
    simp only [fieldsVarlenF] at h
    rw [← Option.some.inj h]
    exact ⟨[], rfl⟩
  | cons fld rest ih =>
    intro memo out h
    by_cases hif : hasIfAttr fld
    · simp only [fieldsVarlenF, if_pos hif] at h
      rw [← Option.some.inj h]
      exact ⟨[], rfl⟩
    · rcases htype : fld.type with sz | e | m
      · simp only [fieldsVarlenF, if_neg hif, htype] at h
        exact ih memo out h
      · simp only [fieldsVarlenF, if_neg hif, htype] at h
        exact ih memo out h
      · simp only [fieldsVarlenF, if_neg hif, htype] at h
        rcases hr : rec memo m with _ | ⟨b, memo1⟩
        · rw [hr] at h; simp at h
        · rw [hr] at h
          obtain ⟨pre1, hpre1⟩ := hrec memo m (b, memo1) hr
          cases b with
          | true =>
            simp at h
            rw [← h]
            exact ⟨pre1, hpre1⟩
          | false =>
            simp at h
            obtain ⟨pre2, hpre2⟩ := ih memo1 out h
            simp at hpre1
            refine ⟨pre2 ++ pre1, ?_⟩
            rw [hpre2, hpre1]
            simp [List.append_assoc]

theorem structIsVarlen_growth :
    ∀ fuel structs memo n out, structIsVarlen fuel structs memo n = some out →
      ∃ pre, out.2 = pre ++ memo := by
  intro fuel
  induction fuel with
  | zero => intro structs memo n out h; simp [structIsVarlen] at h
  | succ fuel ih =>
    intro structs memo n out h
    rcases hm : lookupA memo n with _ | v
    · rcases hs : lookupA structs n with _ | s
      · simp [structIsVarlen, hm, hs] at h
      · by_cases hu : s.isUnion && unionVarlenAttr s n
        · simp only [structIsVarlen, hm, hs, if_pos hu] at h
          rw [← Option.some.inj h]
          exact ⟨[(n, true)], rfl⟩
        · simp only [structIsVarlen, hm, hs, if_neg hu] at h
          rcases hf : fieldsVarlenF (structIsVarlen fuel structs)
              ((n, false) :: memo) s.fields with _ | ⟨varlen, memo2⟩
          · rw [hf] at h; simp at h
          · rw [hf] at h
            simp at h
            obtain ⟨pre, hpre⟩ :=
              fieldsVarlenF_growth (structIsVarlen fuel structs)
                (fun memo n out hx => ih structs memo n out hx) s.fields
                ((n, false) :: memo) (varlen, memo2) hf
            rw [← h]
            exact ⟨(n, varlen) :: pre ++ [(n, false)], by
              simp at hpre
              simp [hpre]⟩
    · simp only [structIsVarlen, hm] at h
      rw [← Option.some.inj h]
      exact ⟨[], rfl⟩

theorem fieldsVarlenF_fuel (fuel : Nat) (structs : Structs)
    (hrec : ∀ memo n, (lookupA structs n).isSome ∨ (lookupA memo n).isSome →
      unmemoS structs memo < fuel →
      (structIsVarlen fuel structs memo n).isSome)
    (flds : List Field)
    (hflds : ∀ fld ∈ flds, ∀ m, fld.type = TypeExpr.structRef m →
      (lookupA structs m).isSome) :
    ∀ memo, unmemoS structs memo < fuel →
      (fieldsVarlenF (structIsVarlen fuel structs) memo flds).isSome := by
  induction flds with
  | nil => intro memo _; simp [fieldsVarlenF]
  | cons fld rest ih =>
    intro memo hb
    by_cases hif : hasIfAttr fld
    · simp [fieldsVarlenF, if_pos hif]
    · rcases htype : fld.type with sz | e | m
      · simp only [fieldsVarlenF, if_neg hif, htype]
        exact ih (fun f hf => hflds f (List.mem_cons_of_mem _ hf)) memo hb
      · simp only [fieldsVarlenF, if_neg hif, htype]
        exact ih (fun f hf => hflds f (List.mem_cons_of_mem _ hf)) memo hb
      · simp only [fieldsVarlenF, if_neg hif, htype]
        have hmsome : (lookupA structs m).isSome :=
          hflds fld (List.mem_cons_self _ _) m htype
        have := hrec memo m (Or.inl hmsome) hb
        rcases hr : structIsVarlen fuel structs memo m with _ | ⟨b, memo1⟩
        · rw [hr] at this; simp at this
        · cases b with
          | true => simp
          | false =>
            obtain ⟨pre, hpre⟩ :=
              structIsVarlen_growth fuel structs memo m (false, memo1) hr
            simp at hpre
            have hb1 : unmemoS structs memo1 < fuel := by
              rw [hpre]
              exact lt_of_le_of_lt (unmemoS_append_le structs memo pre) hb
            have := ih (fun f hf => hflds f (List.mem_cons_of_mem _ hf)) memo1 hb1
            simpa using this

theorem structIsVarlen_fuel (structs : Structs) (hclosed : ClosedStructs structs) :
    ∀ fuel memo n, (lookupA structs n).isSome ∨ (lookupA memo n).isSome →
      unmemoS structs memo < fuel → (structIsVarlen fuel structs memo n).isSome := by
  intro fuel
  induction fuel with
  | zero => intro memo n _ h; omega
  | succ fuel ih =>
    intro memo n hsome hb
    rcases hm : lookupA memo n with _ | v
    · have hs : (lookupA structs n).isSome := by
        rcases hsome with h | h
        · exact h
        · rw [hm] at h; simp at h
      rcases hs2 : lookupA structs n with _ | s
      · rw [hs2] at hs; simp at hs
      · by_cases hu : s.isUnion && unionVarlenAttr s n
        · simp [structIsVarlen, hm, hs2, hu]
        · simp only [structIsVarlen, hm, hs2, if_neg hu]
          have hnm : n ∉ memo.map Prod.fst := by
            have := (lookupA_none_iff_not_mem memo n).1 hm
            simpa [keysL] using this
          have hnms : n ∈ structs.map Prod.fst := by
            have := (lookupA_isSome_iff_mem structs n).1 hs
            simpa [keysL] using this
          have hb1 : unmemoS structs ((n, false) :: memo) < fuel := by
            have := unmemoS_cons_lt structs memo n false hnms hnm
            omega
          have hfields := fieldsVarlenF_fuel fuel structs
            (fun memo2 n2 hx hy => ih memo2 n2 hx hy) s.fields
            (fun fld hf m hm2 => hclosed n s hs2 fld hf m hm2)
            ((n, false) :: memo) hb1
          rcases hf : fieldsVarlenF (structIsVarlen fuel structs)
              ((n, false) :: memo) s.fields with _ | ⟨varlen, memo2⟩
          · rw [hf] at hfields; simp at hfields
          · simp
    · simp [structIsVarlen, hm]

theorem lookupA_mem {β : Type} :
    ∀ (l : List (String × β)) (k : String) (v : β),
      lookupA l k = some v → (k, v) ∈ l := by
  intro l
  induction l with
  | nil => intro k v h; simp [lookupA] at h
  | cons p rest ih =>
    intro k v h
    obtain ⟨pk, pv⟩ := p
    by_cases hk : pk = k
    · subst hk
      simp only [lookupA, if_pos rfl] at h
      rw [Option.some.inj h]
      exact List.mem_cons_self _ _
    · simp only [lookupA, if_neg hk] at h
      exact List.mem_cons_of_mem _ (ih k v h)

theorem structIsVarlen_stores :
    ∀ fuel structs memo n v memo',
      structIsVarlen fuel structs memo n = some (v, memo') →
      lookupA memo' n = some v := by
  intro fuel structs memo n v memo' h
  cases fuel with
  | zero => simp [structIsVarlen] at h
  | succ fuel =>
    rcases hm : lookupA memo n with _ | v0
    · rcases hs : lookupA structs n with _ | s
      · simp [structIsVarlen, hm, hs] at h
      · by_cases hu : s.isUnion && unionVarlenAttr s n
        · simp only [structIsVarlen, hm, hs, hu, if_pos] at h
          simp at h
          rw [← h.2, ← h.1]
          simp [lookupA]
        · simp only [structIsVarlen, hm, hs, if_neg hu] at h
          rcases hf : fieldsVarlenF (structIsVarlen fuel structs)
              ((n, false) :: memo) s.fields with _ | ⟨varlen, memo2⟩
          · rw [hf] at h; simp at h
          · rw [hf] at h
            simp at h
            rw [← h.2, ← h.1]
            simp [lookupA]
    · simp only [structIsVarlen, hm] at h
      simp at h
      rw [← h.2, ← h.1]
      exact hm

/-- Claim C5, confirmed.  `structIsVarlen` is memoized and total: a name
already in the memo table returns its cached value with no recomputation and
no memo change; with fuel exceeding the number of unmemoized table entries
the analysis always produces a defined boolean, even for self-referential
structs (the pre-seeded provisional `false` stops the recursion); and every
computed result is stored in the memo for the analysed name, overwriting the
provisional entry. -/
theorem claim_C5 :
    (∀ fuel structs memo n v, lookupA memo n = some v →
      structIsVarlen (fuel + 1) structs memo n = some (v, memo)) ∧
    (∀ structs, ClosedStructs structs → ∀ fuel memo n,
      (lookupA structs n).isSome ∨ (lookupA memo n).isSome →
      unmemoS structs memo < fuel → (structIsVarlen fuel structs memo n).isSome) ∧
    (∀ fuel structs memo n v memo',
      structIsVarlen fuel structs memo n = some (v, memo') →
      lookupA memo' n = some v) := by
  refine ⟨?_, ?_, structIsVarlen_stores⟩
  · intro fuel structs memo n v h
    simp [structIsVarlen, h]
  · intro structs hclosed fuel memo n hsome hb
    exact structIsVarlen_fuel structs hclosed fuel memo n hsome hb

theorem structsSelf_closed : ClosedStructs structsSelf := by
  intro n s h fld hf m hm
  have hmem := lookupA_mem _ _ _ h
  simp [structsSelf] at hmem
  obtain ⟨hn, hs⟩ := hmem
  subst hs
  simp [sSelf] at hf
  subst hf
  simp [sSelf] at hm
  subst hm
  decide

/-- Claim C5, witness: the self-embedding struct terminates with a defined
boolean, and a memoized name is returned unchanged without recomputation. -/
theorem claim_C5_witness :
    (structIsVarlen 2 structsSelf [] "S").isSome ∧
    structIsVarlen 1 structsSelf [("S", true)] "S" = some (true, [("S", true)]) :=
  ⟨claim_C5.2.1 structsSelf structsSelf_closed 2 [] "S" (Or.inl (by decide))
      (by decide),
    claim_C5.1 0 structsSelf [("S", true)] "S" true (by decide)⟩

theorem memoGood_mono (structs : Structs) (rank : String → Nat) (memo : VMemo)
    (b b' : Nat) (h : b' ≤ b) (hg : MemoGood structs rank memo b) :
    MemoGood structs rank memo b' :=
  fun k v hk hr => hg k v hk (lt_of_lt_of_le hr h)

theorem newOK_refl (structs : Structs) (memo : VMemo) : NewOK structs memo memo :=
  fun _ _ h => Or.inl h

theorem newOK_trans (structs : Structs) (m1 m2 m3 : VMemo)
    (h12 : NewOK structs m1 m2) (h23 : NewOK structs m2 m3) :
    NewOK structs m1 m3 := by
  intro k v h
  rcases h23 k v h with h2 | hc
  · exact h12 k v h2
  · exact Or.inr hc

theorem memoGood_of_newOK (structs : Structs) (rank : String → Nat)
    (memo memo' : VMemo) (b : Nat) (hok : NewOK structs memo memo')
    (hg : MemoGood structs rank memo b) : MemoGood structs rank memo' b := by
  intro k v h hr
  rcases hok k v h with h2 | hc
  · exact hg k v h2 hr
  · exact hc

theorem fieldsVarlen_correct_aux (structs : Structs) (rank : String → Nat)
    (n : String) (fuel : Nat)
    (SIH : ∀ m, rank m < rank n → ∀ memo2, unmemoS structs memo2 < fuel →
      MemoGood structs rank memo2 (rank m + 1) → (lookupA structs m).isSome →
      ∃ v memo', structIsVarlen fuel structs memo2 m = some (v, memo') ∧
        (v = true ↔ VarlenTrue structs m) ∧ NewOK structs memo2 memo' ∧
        ∃ pre, memo' = pre ++ memo2) :
    ∀ flds, (∀ fld ∈ flds, ∀ m, fld.type = TypeExpr.structRef m →
      rank m < rank n ∧ (lookupA structs m).isSome) →
    ∀ memo, unmemoS structs memo < fuel → MemoGood structs rank memo (rank n) →
      ∃ r memo', fieldsVarlenF (structIsVarlen fuel structs) memo flds =
          some (r, memo') ∧
        NewOK structs memo memo' ∧ (∃ pre, memo' = pre ++ memo) ∧
        MemoGood structs rank memo' (rank n) ∧
        (r = true → (∃ fld ∈ flds, hasIfAttr fld = true) ∨
          (∃ fld ∈ flds, ∃ m, fld.type = TypeExpr.structRef m ∧
            VarlenTrue structs m)) ∧
        (r = false → ∀ fld ∈ flds, hasIfAttr fld = false ∧
          (∀ m, fld.type = TypeExpr.structRef m → ¬ VarlenTrue structs m)) := by
  intro flds
  induction flds with
  | nil =>
    intro _ memo hfuel hgood
    refine ⟨false, memo, by simp [fieldsVarlenF], newOK_refl structs memo,
      ⟨[], rfl⟩, hgood, by simp, ?_⟩
    intro _ fld hf
    simp at hf
  | cons fld rest ih =>
    intro hflds memo hfuel hgood
    by_cases hif : hasIfAttr fld
    · refine ⟨true, memo, by simp [fieldsVarlenF, hif], newOK_refl structs memo,
        ⟨[], rfl⟩, hgood, ?_, by simp⟩
      intro _
      exact Or.inl ⟨fld, List.mem_cons_self _ _, hif⟩
    · rcases htype : fld.type with sz | e | m
      · obtain ⟨r, memo', heq, hok, hpre, hgood2, htrue, hfalse⟩ :=
          ih (fun f hf => hflds f (List.mem_cons_of_mem _ hf)) memo hfuel hgood
        refine ⟨r, memo', by simp [fieldsVarlenF, hif, htype, heq], hok, hpre,
          hgood2, ?_, ?_⟩
        · intro hr
          rcases htrue hr with ⟨f, hf, hi⟩ | ⟨f, hf, m2, ht2, hv2⟩
          · exact Or.inl ⟨f, List.mem_cons_of_mem _ hf, hi⟩
          · exact Or.inr ⟨f, List.mem_cons_of_mem _ hf, m2, ht2, hv2⟩
        · intro hr f hf
          rcases List.mem_cons.mp hf with hfv | hfr
          · subst hfv
            refine ⟨by simpa using hif, ?_⟩
            intro m2 hm2
            rw [htype] at hm2
            simp at hm2
          · exact hfalse hr f hfr
      · obtain ⟨r, memo', heq, hok, hpre, hgood2, htrue, hfalse⟩ :=
          ih (fun f hf => hflds f (List.mem_cons_of_mem _ hf)) memo hfuel hgood
        refine ⟨r, memo', by simp [fieldsVarlenF, hif, htype, heq], hok, hpre,
          hgood2, ?_, ?_⟩
        · intro hr
          rcases htrue hr with ⟨f, hf, hi⟩ | ⟨f, hf, m2, ht2, hv2⟩
          · exact Or.inl ⟨f, List.mem_cons_of_mem _ hf, hi⟩
          · exact Or.inr ⟨f, List.mem_cons_of_mem _ hf, m2, ht2, hv2⟩
        · intro hr f hf
          rcases List.mem_cons.mp hf with hfv | hfr
          · subst hfv
            refine ⟨by simpa using hif, ?_⟩
            intro m2 hm2
            rw [htype] at hm2
            simp at hm2
          · exact hfalse hr f hfr
      · obtain ⟨hrank, hsome⟩ := hflds fld (List.mem_cons_self _ _) m htype
        have hgoodm : MemoGood structs rank memo (rank m + 1) :=
          memoGood_mono structs rank memo (rank n) (rank m + 1) hrank hgood
        obtain ⟨vm, memo1, heq1, hiff1, hok1, pre1, hpre1⟩ :=
          SIH m hrank memo hfuel hgoodm hsome
        cases vm with
        | true =>
          refine ⟨true, memo1, by simp [fieldsVarlenF, hif, htype, heq1], hok1,
            ⟨pre1, hpre1⟩, memoGood_of_newOK structs rank memo memo1 _ hok1 hgood,
            ?_, by simp⟩
          intro _
          exact Or.inr ⟨fld, List.mem_cons_self _ _, m, htype, hiff1.1 rfl⟩
        | false =>
          have hnvt : ¬ VarlenTrue structs m := by
            intro hvt
            have := hiff1.2 hvt
            simp at this
          have hfuel1 : unmemoS structs memo1 < fuel := by
            rw [hpre1]
            exact lt_of_le_of_lt (unmemoS_append_le structs memo pre1) hfuel
          have hgood1 : MemoGood structs rank memo1 (rank n) :=
            memoGood_of_newOK structs rank memo memo1 _ hok1 hgood
          obtain ⟨r, memo2, heq2, hok2, ⟨pre2, hpre2⟩, hgood2, htrue, hfalse⟩ :=
            ih (fun f hf => hflds f (List.mem_cons_of_mem _ hf)) memo1 hfuel1 hgood1
          refine ⟨r, memo2, by simp [fieldsVarlenF, hif, htype, heq1, heq2],
            newOK_trans structs memo memo1 memo2 hok1 hok2,
            ⟨pre2 ++ pre1, by rw [hpre2, hpre1]; simp [List.append_assoc]⟩,
            hgood2, ?_, ?_⟩
          · intro hr
            rcases htrue hr with ⟨f, hf, hi⟩ | ⟨f, hf, m2, ht2, hv2⟩
            · exact Or.inl ⟨f, List.mem_cons_of_mem _ hf, hi⟩
            · exact Or.inr ⟨f, List.mem_cons_of_mem _ hf, m2, ht2, hv2⟩
          · intro hr f hf
            rcases List.mem_cons.mp hf with hfv | hfr
            · subst hfv
              refine ⟨by simpa using hif, ?_⟩
              intro m2 hm2
              rw [htype] at hm2
              simp at hm2
              rw [← hm2]
              exact hnvt
            · exact hfalse hr f hfr

theorem structIsVarlen_correct (structs : Structs) (rank : String → Nat)
    (hranked : Ranked structs rank) (hclosed : ClosedStructs structs) :
    ∀ N n, rank n < N → ∀ memo fuel, unmemoS structs memo < fuel →
      MemoGood structs rank memo (rank n + 1) →
      (lookupA structs n).isSome →
      ∃ v memo', structIsVarlen fuel structs memo n = some (v, memo') ∧
        (v = true ↔ VarlenTrue structs n) ∧
        NewOK structs memo memo' ∧ (∃ pre, memo' = pre ++ memo) := by
  intro N
  induction N with
  | zero => intro n h; omega
  | succ N ihN =>
    intro n hrank memo fuel hfuel hgood hsome
    cases fuel with
    | zero => omega
    | succ f =>
      rcases hm : lookupA memo n with _ | v
      · rcases hs : lookupA structs n with _ | s
        · rw [hs] at hsome; simp at hsome
        · by_cases hu : s.isUnion && unionVarlenAttr s n
          · have hsplit : s.isUnion = true ∧ unionVarlenAttr s n = true := by
              rw [← Bool.and_eq_true]
              exact hu
            have hvt : VarlenTrue structs n :=
              VarlenTrue.unionAttr n s hs hsplit.1 hsplit.2
            refine ⟨true, (n, true) :: memo,
              by simp [structIsVarlen, hm, hs, hu], ⟨fun _ => hvt, fun _ => rfl⟩,
              ?_, ⟨[(n, true)], rfl⟩⟩
            intro k v hk
            simp only [lookupA] at hk
            by_cases hnk : n = k
            · subst hnk
              rw [if_pos rfl] at hk
              have hv := Option.some.inj hk
              refine Or.inr ?_
              rw [← hv]
              exact ⟨fun _ => hvt, fun _ => rfl⟩
            · rw [if_neg hnk] at hk
              exact Or.inl hk
          · have hnm : n ∉ memo.map Prod.fst := by
              have := (lookupA_none_iff_not_mem memo n).1 hm
              simpa [keysL] using this
            have hnms : n ∈ structs.map Prod.fst := by
              have : (lookupA structs n).isSome := by rw [hs]; rfl
              have := (lookupA_isSome_iff_mem structs n).1 this
              simpa [keysL] using this
            have hfuel1 : unmemoS structs ((n, false) :: memo) < f := by
              have := unmemoS_cons_lt structs memo n false hnms hnm
              omega
            have hgood1 : MemoGood structs rank ((n, false) :: memo) (rank n) := by
              intro k v hk hr
              simp only [lookupA] at hk
              by_cases hnk : n = k
              · subst hnk
                omega
              · rw [if_neg hnk] at hk
                exact hgood k v hk (by omega)
            have SIH : ∀ m, rank m < rank n → ∀ memo2,
                unmemoS structs memo2 < f →
                MemoGood structs rank memo2 (rank m + 1) →
                (lookupA structs m).isSome →
                ∃ v memo', structIsVarlen f structs memo2 m = some (v, memo') ∧
                  (v = true ↔ VarlenTrue structs m) ∧ NewOK structs memo2 memo' ∧
                  ∃ pre, memo' = pre ++ memo2 := by
              intro m hm2 memo2 h1 h2 h3
              exact ihN m (by omega) memo2 f h1 h2 h3
            obtain ⟨r, memo2, heq2, hok2, ⟨pre2, hpre2⟩, hgood2, htrue, hfalse⟩ :=
              fieldsVarlen_correct_aux structs rank n f SIH s.fields
                (fun fld hf m hm2 =>
                  ⟨hranked n s fld m hs hf hm2, hclosed n s hs fld hf m hm2⟩)
                ((n, false) :: memo) hfuel1 hgood1
            have hiff : (r = true ↔ VarlenTrue structs n) := by
              constructor
              · intro hr
                rcases htrue hr with ⟨f2, hf2, hi2⟩ | ⟨f2, hf2, m2, ht2, hv2⟩
                · exact VarlenTrue.fieldIf n s f2 hs hf2 hi2
                · exact VarlenTrue.fieldRec n s f2 m2 hs hf2 ht2 hv2
              · intro hvt
                by_contra hr
                have hrf : r = false := by
                  cases r with
                  | false => rfl
                  | true => exact absurd rfl hr
                cases hvt with
                | unionAttr _ s2 hs2 hu2 ha2 =>
                  rw [hs] at hs2
                  have hss := Option.some.inj hs2
                  subst hss
                  rw [hu2, ha2] at hu
                  simp at hu
                | fieldIf _ s2 fld hs2 hf2 hif2 =>
                  rw [hs] at hs2
                  have hss := Option.some.inj hs2
                  subst hss
                  have := (hfalse hrf fld hf2).1
                  rw [hif2] at this
                  simp at this
                | fieldRec _ s2 fld m2 hs2 hf2 ht2 hm2 =>
                  rw [hs] at hs2
                  have hss := Option.some.inj hs2
                  subst hss
                  exact (hfalse hrf fld hf2).2 m2 ht2 hm2
            refine ⟨r, (n, r) :: memo2,
              by simp [structIsVarlen, hm, hs, hu, heq2], hiff, ?_, ?_⟩
            · intro k v hk
              simp only [lookupA] at hk
              by_cases hnk : n = k
              · subst hnk
                rw [if_pos rfl] at hk
                have hv := Option.some.inj hk
                refine Or.inr ?_
                rw [← hv]
                exact hiff
              · rw [if_neg hnk] at hk
                rcases hok2 k v hk with hold | hc
                · simp only [lookupA, if_neg hnk] at hold
                  exact Or.inl hold
                · exact Or.inr hc
            · refine ⟨(n, r) :: pre2 ++ [(n, false)], ?_⟩
              rw [hpre2]
              simp
      · refine ⟨v, memo, by simp [structIsVarlen, hm],
          hgood n v hm (Nat.lt_succ_self _), newOK_refl structs memo, ⟨[], rfl⟩⟩

/-- Claim C6, corrected and amended.  When no struct embeds itself by value,
directly or transitively (witnessed by a strictly decreasing rank on
by-value references — the well-formedness the recursive-size check enforces
separately), and the memo table holds only entries that agree with the
recursive specification (in particular a fresh, empty table),
`structIsVarlen` returns true exactly for a union carrying the explicit
varlen attribute or a struct with a field that carries the
conditional-inclusion attribute or whose own type is varlen, recursively;
the resulting memo table again agrees with the specification, so every later
call stays correct.  Without the by-value acyclicity the iff can fail across
calls, because a struct analysed while its by-value ancestor was in progress
is finalized with a stale provisional `false` (see the counterexample). -/
theorem claim_C6 (structs : Structs) (rank : String → Nat)
    (hranked : Ranked structs rank) (hclosed : ClosedStructs structs)
    (memo : VMemo)
    (hmemo : ∀ k v, lookupA memo k = some v → (v = true ↔ VarlenTrue structs k))
    (n : String) (hn : (lookupA structs n).isSome)
    (fuel : Nat) (hfuel : unmemoS structs memo < fuel) :
    ∃ v memo', structIsVarlen fuel structs memo n = some (v, memo') ∧
      (v = true ↔ VarlenTrue structs n) ∧
      (∀ k v2, lookupA memo' k = some v2 → (v2 = true ↔ VarlenTrue structs k)) := by
  obtain ⟨v, memo', heq, hiff, hok, _⟩ :=
    structIsVarlen_correct structs rank hranked hclosed (rank n + 1) n
      (Nat.lt_succ_self _) memo fuel hfuel (fun k v hk _ => hmemo k v hk) hn
  refine ⟨v, memo', heq, hiff, ?_⟩
  intro k v2 hk
  rcases hok k v2 hk with hold | hc
  · exact hmemo k v2 hold
  · exact hc

/-- Claim C6, counterexample to the claim as stated: after `Y` is analysed
(correctly, as varlen), the memo holds a stale `false` for `X` — finalized
while its by-value ancestor `Y` was still provisional — so a later call for
`X` returns false although `X`'s only field has type `Y`, which is varlen;
the claimed if-and-only-if fails for that call. -/
theorem claim_C6_counterexample :
    structIsVarlen 4 tblStale [] "Y" = some (true, staleMemo) ∧
    structIsVarlen 4 tblStale staleMemo "X" = some (false, staleMemo) ∧
    VarlenTrue tblStale "X" := by
  refine ⟨by decide, by decide, ?_⟩
  have hZ : VarlenTrue tblStale "Z" :=
    VarlenTrue.fieldIf "Z" ⟨false, [], [⟨"c", TypeExpr.int 4, [ifAttrNode]⟩]⟩
      ⟨"c", TypeExpr.int 4, [ifAttrNode]⟩ rfl (List.mem_singleton.mpr rfl)
      (by decide)
  have hY : VarlenTrue tblStale "Y" :=
    VarlenTrue.fieldRec "Y"
      ⟨false, [],
        [⟨"x", TypeExpr.structRef "X", []⟩, ⟨"z", TypeExpr.structRef "Z", []⟩]⟩
      ⟨"z", TypeExpr.structRef "Z", []⟩ "Z" rfl
      (List.mem_cons_of_mem _ (List.mem_singleton.mpr rfl)) rfl hZ
  exact VarlenTrue.fieldRec "X"
    ⟨false, [], [⟨"y", TypeExpr.structRef "Y", []⟩]⟩
    ⟨"y", TypeExpr.structRef "Y", []⟩ "Y" rfl (List.mem_singleton.mpr rfl) rfl hY

theorem tblW_no_refs : ∀ n s, lookupA tblW n = some s → ∀ fld ∈ s.fields,
    ∀ m, fld.type ≠ TypeExpr.structRef m := by
  intro n s h fld hf m
  have hmem := lookupA_mem _ _ _ h
  simp [tblW] at hmem
  rcases hmem with ⟨hn, hs⟩ | ⟨hn, hs⟩ <;> subst hs <;> simp at hf
  · subst hf; simp
  · rcases hf with hf | hf <;> subst hf <;> simp

theorem tblW_ranked : Ranked tblW (fun _ => 0) := by
  intro n s fld m hs hf hm
  exact absurd hm (tblW_no_refs n s hs fld hf m)

theorem tblW_closed : ClosedStructs tblW := by
  intro n s hs fld hf m hm
  exact absurd hm (tblW_no_refs n s hs fld hf m)

/-- Claim C6, witness: on the by-value acyclic table the analysis agrees
with the recursive specification for `Q` (which has an if-field). -/
theorem claim_C6_witness :
    ∃ v memo', structIsVarlen 3 tblW [] "Q" = some (v, memo') ∧
      (v = true ↔ VarlenTrue tblW "Q") ∧
      (∀ k v2, lookupA memo' k = some v2 → (v2 = true ↔ VarlenTrue tblW k)) :=
  claim_C6 tblW (fun _ => 0) tblW_ranked tblW_closed []
    (fun k v hk => by simp [lookupA] at hk) "Q" (by decide) 3 (by decide)

theorem filterNodes_fst (supports : AstNode → Bool) (ns : List AstNode)
    (unsup : List String) :
    (filterNodes supports ns unsup).1 = ns.filter supports := by
  induction ns generalizing unsup with
  | nil => simp [filterNodes]
  | cons n rest ih =>
    by_cases hs : supports n = true
    · have heq : archPred supports n unsup = (true, unsup) := by
        simp [archPred, hs]
      simp [filterNodes, heq, List.filter, hs, ih]
    · rcases hp : archPred supports n unsup with ⟨b, u⟩
      have hb : b = false := by
        simp [archPred, hs] at hp
        by_cases hd : isArchDecl n.kind = true <;> simp [hd] at hp <;>
          exact hp.1
      subst hb
      simp [filterNodes, hp, List.filter, hs, ih]

theorem filterNodes_snd_mono (supports : AstNode → Bool) (ns : List AstNode)
    (unsup : List String) :
    ∀ x ∈ unsup, x ∈ (filterNodes supports ns unsup).2 := by
  induction ns generalizing unsup with
  | nil => intro x hx; simpa [filterNodes] using hx
  | cons n rest ih =>
    intro x hx
    by_cases hs : supports n = true
    · have heq : archPred supports n unsup = (true, unsup) := by
        simp [archPred, hs]
      simp only [filterNodes, heq]
      exact ih unsup x hx
    · by_cases hd : isArchDecl n.kind = true
      · have heq : archPred supports n unsup =
            (false, unsup ++ [n.typ ++ " " ++ n.name]) := by
          simp [archPred, hs, hd]
        simp only [filterNodes, heq]
        exact ih _ x (List.mem_append_left _ hx)
      · have heq : archPred supports n unsup = (false, unsup) := by
          simp [archPred, hs, hd]
        simp only [filterNodes, heq]
        exact ih unsup x hx

theorem filterNodes_records (supports : AstNode → Bool) (ns : List AstNode)
    (unsup : List String) :
    ∀ n ∈ ns, supports n = false → isArchDecl n.kind = true →
      (n.typ ++ " " ++ n.name) ∈ (filterNodes supports ns unsup).2 := by
  induction ns generalizing unsup with
  | nil => intro n hn; simp at hn
  | cons m rest ih =>
    intro n hn hns hnd
    rcases List.mem_cons.mp hn with hn | hn
    · subst hn
      have heq : archPred supports n unsup =
          (false, unsup ++ [n.typ ++ " " ++ n.name]) := by
        simp [archPred, hns, hnd]
      simp only [filterNodes, heq]
      exact filterNodes_snd_mono supports rest _ _
        (List.mem_append_right _ (List.mem_singleton.mpr rfl))
    · by_cases hs : supports m = true
      · have heq : archPred supports m unsup = (true, unsup) := by
          simp [archPred, hs]
        simp only [filterNodes, heq]
        exact ih unsup n hn hns hnd
      · by_cases hd : isArchDecl m.kind = true
        · have heq : archPred supports m unsup =
              (false, unsup ++ [m.typ ++ " " ++ m.name]) := by
            simp [archPred, hs, hd]
          simp only [filterNodes, heq]
          exact ih _ n hn hns hnd
        · have heq : archPred supports m unsup = (false, unsup) := by
            simp [archPred, hs, hd]
          simp only [filterNodes, heq]
          exact ih unsup n hn hns hnd

/-- Claim C9: `filterArch` keeps exactly the supported nodes (in order),
leaves the error counter unchanged, records every removed resource, struct,
call or type-definition node in the unsupported set under the key
`typ ++ " " ++ name`, keeps previously recorded unsupported keys, and a call
name all of whose declarations are unsupported is absent from the syscall
list generated from the filtered tree. -/
theorem claim_C9 (supports : AstNode → Bool) (st : ArchSt) :
    (filterArch supports st).nodes = st.nodes.filter supports ∧
    (filterArch supports st).errors = st.errors ∧
    (∀ n ∈ st.nodes, supports n = false → isArchDecl n.kind = true →
      (n.typ ++ " " ++ n.name) ∈ (filterArch supports st).unsupported) ∧
    (∀ x ∈ st.unsupported, x ∈ (filterArch supports st).unsupported) ∧
    (∀ nm : String,
      (∀ n ∈ st.nodes, n.kind = NodeKind.call → n.name = nm →
        supports n = false) →
      nm ∉ genSyscalls (filterArch supports st).nodes) := by
  refine ⟨filterNodes_fst supports st.nodes st.unsupported, rfl,
    filterNodes_records supports st.nodes st.unsupported,
    filterNodes_snd_mono supports st.nodes st.unsupported, ?_⟩
  intro nm hall hmem
  rw [show (filterArch supports st).nodes = st.nodes.filter supports from
    filterNodes_fst supports st.nodes st.unsupported] at hmem
  simp only [genSyscalls, List.mem_map] at hmem
  obtain ⟨n, hn, hname⟩ := hmem
  have hn2 := List.of_mem_filter hn
  have hcall : n.kind = NodeKind.call := by
    simpa using hn2
  have hnmem : n ∈ st.nodes := List.mem_of_mem_filter (List.mem_filter.mp hn).1
  have hsup : supports n = true := by
    have := (List.mem_filter.mp (List.mem_filter.mp hn).1).2
    exact this
  have := hall n hnmem hcall hname
  rw [hsup] at this
  exact absurd this (by simp)

/-- Claim C9, witness: on `archSt0` the unsupported call is removed and
recorded as `syscall write`, the error counter stays 5, and `write` is
absent from the generated syscall list. -/
theorem claim_C9_witness :
    (filterArch supports0 archSt0).nodes = archSt0.nodes.filter supports0 ∧
    (filterArch supports0 archSt0).errors = 5 ∧
    "syscall write" ∈ (filterArch supports0 archSt0).unsupported ∧
    "write" ∉ genSyscalls (filterArch supports0 archSt0).nodes := by
  obtain ⟨h1, h2, h3, _, h5⟩ := claim_C9 supports0 archSt0
  exact ⟨h1, h2,
    h3 ⟨NodeKind.call, "syscall", "write"⟩ (by decide) (by decide) (by decide),
    h5 "write" (by decide)⟩

/-- Claim C1, corrected: whenever `Compile` returns a Prog the error counter
of the returned state is zero; the check after flag flattening is a barrier
(errors there yield `nil` with no further stage executed), the check on the
nil-consts path is a barrier, and the check after `check` is a barrier (no
generation stage executes).  The claim's per-transition version fails: see
the counterexample. -/
theorem claim_C1 {σ : Type} (ops : CompilerOps σ) (hasConsts : Bool)
    (s0 s3 s6 : σ)
    (h3 : s3 = ops.flattenFlags (ops.typecheck (ops.filterArch s0)))
    (h6 : s6 = ops.check (ops.patchConsts
      (if ops.syscallNumbers then ops.assignSyscallNumbers s3 else s3))) :
    (∀ s, (Compile ops hasConsts s0).1 = some s → ops.errors s = 0) ∧
    (ops.errors s3 ≠ 0 →
      Compile ops hasConsts s0 =
        (none, ["filterArch", "typecheck", "flattenFlags"])) ∧
    (hasConsts = false → ops.errors s3 = 0 →
      ops.errors (ops.extractConsts s3) ≠ 0 →
      Compile ops hasConsts s0 =
        (none, ["filterArch", "typecheck", "flattenFlags", "extractConsts"])) ∧
    (hasConsts = true → ops.errors s3 = 0 → ops.errors s6 ≠ 0 →
      (Compile ops hasConsts s0).1 = none ∧
      "genSyscalls" ∉ (Compile ops hasConsts s0).2) := by
  subst h3 h6
  refine ⟨?_, ?_, ?_, ?_⟩
  · intro s hs
    simp only [Compile] at hs
    repeat' split at hs
    all_goals simp only [Prod.fst] at hs
    all_goals first
      | (rw [← Option.some.inj hs]; omega)
      | cases hs
  · intro h3e
    simp [Compile, h3e]
  · intro hc h3z h4e
    subst hc
    simp [Compile, h3z, h4e]
  · intro hc h3z h6e
    subst hc
    simp only [Compile]
    rw [if_neg (by simpa using h3z)]
    rw [if_neg (by simp)]
    rw [if_pos h6e]
    constructor
    · rfl
    · rcases hsn : ops.syscallNumbers <;> simp [hsn]

/-- Claim C1, counterexample to the claim as stated: not every stage
transition is a barrier.  When typecheck accumulates an error, flattenFlags
still executes (Compile returns nil only afterwards); and when patchConsts
accumulates an error, check still executes — only the later barrier stops
the pipeline. -/
theorem claim_C1_counterexample :
    opsTc.errors (opsTc.typecheck (opsTc.filterArch 0)) ≠ 0 ∧
    "flattenFlags" ∈ (Compile opsTc true 0).2 ∧
    (Compile opsTc true 0).1 = none ∧
    opsPc.errors (opsPc.patchConsts (opsPc.flattenFlags
      (opsPc.typecheck (opsPc.filterArch 0)))) ≠ 0 ∧
    "check" ∈ (Compile opsPc true 0).2 ∧
    (Compile opsPc true 0).1 = none := by
  refine ⟨by decide, ?_, by decide, by decide, ?_, by decide⟩
  · have h : Compile opsTc true 0 =
        (none, ["filterArch", "typecheck", "flattenFlags"]) := by decide
    rw [h]; simp
  · have h : Compile opsPc true 0 =
        (none, ["filterArch", "typecheck", "flattenFlags", "patchConsts",
          "check"]) := by decide
    rw [h]; simp

/-- Claim C1, witness: with an error first raised by check, Compile returns
nil and no generation stage runs. -/
theorem claim_C1_witness :
    (Compile opsCk true 0).1 = none ∧
    "genSyscalls" ∉ (Compile opsCk true 0).2 :=
  (claim_C1 opsCk true 0 0 1 rfl rfl).2.2.2 rfl rfl (by decide)

end SyzComp
